import Mathlib

set_option maxRecDepth 100000

/-
  Verification development for the ICS text-transformation engine of the
  rawtext2ics repository (src/services/geminiService.ts).

  Text is modelled as a list of characters.  JavaScript strings, the
  regular-expression operations of the source and the Date arithmetic
  (local wall-clock time, proleptic Gregorian calendar, millisecond
  timestamps) are embedded as executable Lean functions.  NaN-valued
  JavaScript numbers and invalid Date objects are modelled by the
  none value of an Option Int.
-/

namespace Ics

abbrev Text := List Char

/-- Characters removed by the JavaScript String trim at the ends of the
input (the ASCII whitespace characters relevant to this pipeline). -/
def isJsWs (c : Char) : Bool :=
  c = ' ' || c = '\t' || c = '\n' || c = '\r' || c = '\x0b' || c = '\x0c'

/-- Model of inputText.trim() from line 54 of the source. -/
def jsTrim (t : Text) : Text :=
  ((t.dropWhile isJsWs).reverse.dropWhile isJsWs).reverse

/-- Model of the global replace of CRLF by LF from line 54 of the source:
the text is scanned left to right and each two-character CRLF sequence is
replaced by a single LF. -/
def crlfToLf : Text → Text
  | [] => []
  | '\r' :: '\n' :: r => '\n' :: crlfToLf r
  | c :: r => c :: crlfToLf r

/-- Model of the global replace of LF by CRLF from line 54 of the source. -/
def lfToCrlf : Text → Text
  | [] => []
  | '\n' :: r => '\r' :: '\n' :: lfToCrlf r
  | c :: r => c :: lfToCrlf r

/-- Step 1 of the source (line 54): trim, then normalize CRLF to LF, then
LF to CRLF.  A carriage return that is not part of a CRLF pair is left
unchanged by both replacements. -/
def cleanText (t : Text) : Text := lfToCrlf (crlfToLf (jsTrim t))

/-- Decides whether the first argument is a leading segment of the second. -/
def isPre : Text → Text → Bool
  | [], _ => true
  | _ :: _, [] => false
  | a :: as, b :: bs => a = b && isPre as bs

/-- Decides whether pat occurs as a contiguous substring. -/
def containsSub (pat : Text) : Text → Bool
  | [] => isPre pat []
  | c :: r => isPre pat (c :: r) || containsSub pat r

/-- Splits at the first occurrence of pat, returning the part before the
occurrence and the part after it. -/
def splitFirstSub (pat : Text) : Text → Option (Text × Text)
  | [] => if isPre pat [] then some ([], []) else none
  | c :: r =>
    if isPre pat (c :: r) then some ([], (c :: r).drop pat.length)
    else (splitFirstSub pat r).map (fun pr => (c :: pr.1, pr.2))

def beginMarker : Text := ("BEGIN:VEVENT").data
def endMarker : Text := ("END:VEVENT").data

/-- Scans for the first occurrence of END:VEVENT; on success returns the
text up to and including the marker together with the remaining text.
This is the lazy tail of the block-extraction regex of line 58. -/
def findEndMarker : Text → Option (Text × Text)
  | [] => none
  | c :: r =>
    if isPre endMarker (c :: r) then some (endMarker, (c :: r).drop endMarker.length)
    else
      match findEndMarker r with
      | some (a, rest) => some (c :: a, rest)
      | none => none

/-- Fuel-indexed scan for the exec loop of lines 58 to 62; the fuel is
an upper bound on the scan position, so any fuel of at least the text
length gives the same result. -/
def extractBlocksAux : Nat → Text → List Text
  | 0, _ => []
  | _ + 1, [] => []
  | fuel + 1, c :: r =>
    if isPre beginMarker (c :: r) then
      match findEndMarker ((c :: r).drop beginMarker.length) with
      | some (mid, rest) => (beginMarker ++ mid) :: extractBlocksAux fuel rest
      | none => []
    else extractBlocksAux fuel r

/-- Model of the exec loop of lines 58 to 62: repeatedly match the lazy
regex BEGIN:VEVENT to END:VEVENT and continue after the end of each
match.  If a BEGIN marker has no following END marker there is no match
anywhere, and the scan stops. -/
def extractBlocks (t : Text) : List Text := extractBlocksAux t.length t

/-- Line terminators distinguished by the multiline regex semantics of
JavaScript: CRLF, lone LF, lone CR, and end of text. -/
inductive Sep where
  | crlf
  | lf
  | cr
  | eos
deriving DecidableEq, Repr

abbrev Line := Text × Sep

def sepText : Sep → Text
  | .crlf => '\r' :: '\n' :: []
  | .lf => ['\n']
  | .cr => ['\r']
  | .eos => []

/-- Splits text into lines at CRLF, lone CR and lone LF, recording the
terminator of each line.  The last line carries the end-of-text marker.
This matches the line boundaries used by the multiline flag of the
JavaScript regexes in the source, where both CR and LF terminate a line. -/
def splitLines : Text → List Line
  | [] => [([], .eos)]
  | '\r' :: '\n' :: r => ([], .crlf) :: splitLines r
  | '\r' :: r => ([], .cr) :: splitLines r
  | '\n' :: r => ([], .lf) :: splitLines r
  | c :: r =>
    match splitLines r with
    | (l, s) :: rest => ((c :: l), s) :: rest
    | [] => [([c], .eos)]

def joinLines : List Line → Text
  | [] => []
  | (c, s) :: rest => c ++ sepText s ++ joinLines rest

/-- Value after the first colon of the given text, if any. -/
def afterFirstColon : Text → Option Text
  | [] => none
  | c :: r => if c = ':' then some r else afterFirstColon r

/-- Model of one line matched against the regex of getLineValue
(line 45 of the source).  The line must start with the key; the greedy
optional parameter group then consumes one colon or semicolon plus the
lazily shortest span up to a further colon when such a colon exists,
so the captured value is the text after that second separator;
otherwise the empty parameter group plus a single leading colon is
matched and the value is the whole remainder of the line. -/
def matchKey (key line : Text) : Option Text :=
  if isPre key line then
    match line.drop key.length with
    | ':' :: r2 =>
      match afterFirstColon r2 with
      | some v => some v
      | none => some r2
    | ';' :: r2 => afterFirstColon r2
    | _ => none
  else none

/-- Model of getLineValue (lines 38 to 48): the value of the first line
of the block that matches the key regex, searching lines in order. -/
def getLineValue (block : Text) (key : Text) : Option Text :=
  (splitLines block).findSome? (fun ln => matchKey key ln.1)

/-- Truthiness of a possibly absent string value in JavaScript: both a
missing value and the empty string are falsy. -/
def jsTruthy : Option Text → Bool
  | some (_ :: _) => true
  | _ => false

/-! ## Date engine

JavaScript Date values are modelled as millisecond timestamps in local
wall-clock time with a fixed (zero) utc offset, using the proleptic
Gregorian calendar, matching the ECMAScript MakeDay and MakeTime
specification.  A NaN timestamp (invalid Date) is the none value of
JsNum. -/

abbrev JsNum := Option Int

def jsAdd : JsNum → JsNum → JsNum
  | some x, some y => some (x + y)
  | _, _ => none

def jsSub : JsNum → JsNum → JsNum
  | some x, some y => some (x - y)
  | _, _ => none

/-- Comparison of two Date values in JavaScript: any comparison with a
NaN timestamp is false. -/
def jsLtB : JsNum → JsNum → Bool
  | some x, some y => decide (x < y)
  | _, _ => false

/-- Count of days from the civil epoch 1970-01-01 for a year, a month in
1..12 and a day, by the standard civil-from-days algorithm of the
proleptic Gregorian calendar. -/
def daysFromCivil (y m d : Int) : Int :=
  let y2 := y - (if m ≤ 2 then 1 else 0)
  let era := y2 / 400
  let yoe := y2 - era * 400
  let mp := if 2 < m then m - 3 else m + 9
  let doy := (153 * mp + 2) / 5 + d - 1
  let doe := yoe * 365 + yoe / 4 - yoe / 100 + doy
  era * 146097 + doe - 719468

/-- Year-of-era numerator of the civil-from-days algorithm. -/
def civilNf (doe : Int) : Int :=
  doe - doe / 1460 + doe / 36524 - doe / 146096

/-- Days before year y within an era of the proleptic Gregorian
calendar (March-based years, y in 0..399). -/
def civilG (y : Int) : Int := 365 * y + y / 4 - y / 100

/-- Inverse of daysFromCivil: year, month in 1..12 and day of the civil
date of a day count. -/
def civilFromDays (z0 : Int) : Int × Int × Int :=
  let z := z0 + 719468
  let era := z / 146097
  let doe := z - era * 146097
  let yoe := civilNf doe / 365
  let y := yoe + era * 400
  let doy := doe - civilG yoe
  let mp := (5 * doy + 2) / 153
  let d := doy - (153 * mp + 2) / 5 + 1
  let m := mp + (if mp < 10 then 3 else -9)
  (y + (if m ≤ 2 then 1 else 0), m, d)

/-- ECMAScript MakeDay: the month argument is zero-based and may lie
outside 0..11; it is folded into the year with floor division. -/
def jsMakeDay (y m d : Int) : Int :=
  daysFromCivil (y + m / 12) (m % 12 + 1) d

/-- Millisecond timestamp of a local civil date and time, as built by the
Date constructor of line 26 of the source (month zero-based). -/
def jsTimeMs (y m d h mi s : Int) : Int :=
  jsMakeDay y m d * 86400000 + h * 3600000 + mi * 60000 + s * 1000

/-- The two-digit-year rule of the Date constructor: a year in 0..99 is
interpreted as 1900 plus that year. -/
def yearAdjust (y : Int) : Int := if 0 ≤ y ∧ y ≤ 99 then 1900 + y else y

def msDays (ms : Int) : Int := ms / 86400000

/-- Civil year, month in 1..12, day of a timestamp (the getFullYear,
getMonth plus one, getDate accessors). -/
def civilOf (ms : Int) : Int × Int × Int := civilFromDays (msDays ms)

def getHours (ms : Int) : Int := ms / 3600000 % 24

def getMinutes (ms : Int) : Int := ms / 60000 % 60

def digitChar (n : Nat) : Char := Char.ofNat (48 + n)

/-- Fuel-indexed digit rendering; any fuel above the digit count gives
the same result. -/
def natToStrAux : Nat → Nat → Text
  | 0, _ => []
  | fuel + 1, n =>
    if n < 10 then [digitChar n]
    else natToStrAux fuel (n / 10) ++ [digitChar (n % 10)]

/-- Decimal digits of a natural number, most significant first. -/
def natToStr (n : Nat) : Text := natToStrAux (n + 1) n

/-- Decimal rendering of an integer, as the JavaScript template-string
conversion of a number produces it. -/
def intToStr (i : Int) : Text :=
  if i < 0 then '-' :: natToStr (-i).toNat else natToStr i.toNat

/-- Model of padStart(2, "0") applied to the decimal rendering. -/
def pad2 (n : Int) : Text :=
  let s := intToStr n
  if s.length < 2 then '0' :: s else s

/-- Model of formatIcsDate (lines 31 to 34): local-time fields rendered
as YYYYMMDDTHHMM00 with two-digit padding of month, day, hour and
minute; the year is rendered without padding.  An invalid Date renders
every numeric field as NaN. -/
def formatIcsDate : JsNum → Text
  | none => ("NaNNaNNaNTNaNNaN00").data
  | some ms =>
    let c := civilOf ms
    intToStr c.1 ++ pad2 c.2.1 ++ pad2 c.2.2 ++
      'T' :: (pad2 (getHours ms) ++ pad2 (getMinutes ms) ++ ('0' :: '0' :: []))

/-- Decimal value of a digit string. -/
def digitsVal (t : Text) : Nat :=
  t.foldl (fun a c => a * 10 + (c.toNat - 48)) 0

/-- Model of parseInt on a string of digits and letters T: the leading
run of digits, or NaN (none) when the first character is not a digit or
the string is empty. -/
def jsParseIntOpt (t : Text) : Option Nat :=
  match t with
  | c :: _ => if c.isDigit then some (digitsVal (t.takeWhile Char.isDigit)) else none
  | [] => none

/-- Model of parseIcsDate (lines 10 to 27).  The outer none is the null
returned for a falsy or too-short value; some none is an invalid Date
(NaN) produced when the year, month or day slice does not start with a
digit; some (some ms) is a valid timestamp.  Hour, minute and second
come from the segment between the first and second letter T and default
to zero. -/
def parseIcsDate (val : Text) : Option JsNum :=
  if val = [] then none
  else
    let cleaned := val.filter (fun c => c.isDigit || c = 'T')
    if cleaned.length < 8 then none
    else
      let yv := jsParseIntOpt (cleaned.take 4)
      let mv := jsParseIntOpt ((cleaned.drop 4).take 2)
      let dv := jsParseIntOpt ((cleaned.drop 6).take 2)
      let t := ((cleaned.dropWhile (fun c => c ≠ 'T')).drop 1).takeWhile (fun c => c ≠ 'T')
      let h : Nat := (jsParseIntOpt (t.take 2)).getD 0
      let mi : Nat := (jsParseIntOpt ((t.drop 2).take 2)).getD 0
      let s : Nat := (jsParseIntOpt ((t.drop 4).take 2)).getD 0
      some (match yv, mv, dv with
        | some y, some m, some d =>
          some (jsTimeMs (yearAdjust (y : Int)) ((m : Int) - 1) (d : Int) (h : Int) (mi : Int) (s : Int))
        | _, _, _ => none)

/-! ## Per-block rewriting pipeline -/

/-- Replaces the first line whose content satisfies p by the new content.
The matched span of the line-anchored regex includes a trailing carriage
return when one directly precedes the line end, and the replacement does
not restore it: a CRLF terminator of the rewritten line therefore
degrades to a lone LF, and a lone CR terminator is consumed exactly when
the position after it is again a line boundary or the end of the text. -/
def rewriteFirstBy (p : Text → Bool) (new : Text) : List Line → List Line
  | [] => []
  | (c, s) :: rest =>
    if p c then
      match s with
      | .crlf => (new, .lf) :: rest
      | .lf => (new, .lf) :: rest
      | .eos => (new, .eos) :: rest
      | .cr =>
        match rest with
        | ([], s2) :: r2 => (new, s2) :: r2
        | [] => [(new, .eos)]
        | _ => (new, .cr) :: rest
    else (c, s) :: rewriteFirstBy p new rest

/-- Removes the first line whose content satisfies p together with its
terminator, as the RRULE-stripping regex of line 152 does. -/
def deleteFirstBy (p : Text → Bool) : List Line → List Line
  | [] => []
  | (c, s) :: rest =>
    if p c then
      match s with
      | .eos => ([], Sep.eos) :: rest
      | _ => rest
    else (c, s) :: deleteFirstBy p rest

def dtstartKeyT : Text := ("DTSTART").data
def dtendKeyT : Text := ("DTEND").data
def uidKeyT : Text := ("UID").data
def summaryKeyT : Text := ("SUMMARY").data
def uidColon : Text := ("UID:").data
def rruleColon : Text := ("RRULE:").data

/-- Milliseconds in i weeks (line 103 of the source). -/
def weekMs (i : Nat) : Int := (i : Int) * 7 * 24 * 60 * 60 * 1000

/-- Steps 4a and 4b of the source (lines 110 to 130) for one time field:
if the field line is present with a truthy value that parses to a Date
object, the whole first matching line is replaced by the key, a colon
and the formatted shifted time.  The replacement string is built only
from the key and the formatIcsDate rendering (digits, letters and
zeroes), which contain no dollar sign, so the GetSubstitution expansion
String.replace applies to it is the identity and the replacement is
literal. -/
def dtStage (key : Text) (off : JsNum) (wk : Int) (b : Text) : Text :=
  match getLineValue b key with
  | some v =>
    if v = [] then b
    else
      match parseIcsDate v with
      | some od =>
        let nd := jsAdd (jsAdd od off) (some wk)
        joinLines (rewriteFirstBy (fun c => (matchKey key c).isSome)
          (key ++ ':' :: formatIcsDate nd) (splitLines b))
      | none => b
  | none => b

/-- The identifier synthesized at line 141 of the source from the block
index, the occurrence index and the generation timestamp. -/
def genUid (index i : Nat) (now : Int) : Text :=
  ("generated-").data ++ natToStr index ++ ("-week-").data ++ natToStr i ++
    '-' :: (intToStr now ++ ("@icsmagic").data)

/-- GetSubstitution of ECMA-262 for a String.replace whose pattern has
two capture groups, as the regex of line 138 does.  The replacement
string is scanned once, left to right: $$ yields a dollar sign, $& the
matched text, a dollar sign before a backquote the portion of the
subject before the match, before a quote the portion after the match,
$1 or $01 the first capture and $2 or $02 the second; a two-digit
reference beyond the capture count falls back to the one-digit capture
followed by the literal digit, and any other dollar sequence (among
them $0 and $3 to $9, which exceed the capture count) stays literal.
Inserted text is not rescanned. -/
def expandSubstAux (m bf af c1 c2 : Text) : Nat → Text → Text
  | 0, t => t
  | _ + 1, [] => []
  | fuel + 1, c :: r =>
    if c = '$' then
      match r with
      | [] => ['$']
      | d :: r2 =>
        if d = '$' then '$' :: expandSubstAux m bf af c1 c2 fuel r2
        else if d = '&' then m ++ expandSubstAux m bf af c1 c2 fuel r2
        else if d = Char.ofNat 96 then bf ++ expandSubstAux m bf af c1 c2 fuel r2
        else if d = Char.ofNat 39 then af ++ expandSubstAux m bf af c1 c2 fuel r2
        else if d = '1' then c1 ++ expandSubstAux m bf af c1 c2 fuel r2
        else if d = '2' then c2 ++ expandSubstAux m bf af c1 c2 fuel r2
        else if d = '0' then
          match r2 with
          | e :: r3 =>
            if e = '1' then c1 ++ expandSubstAux m bf af c1 c2 fuel r3
            else if e = '2' then c2 ++ expandSubstAux m bf af c1 c2 fuel r3
            else '$' :: '0' :: expandSubstAux m bf af c1 c2 fuel r2
          | [] => '$' :: '0' :: []
        else '$' :: d :: expandSubstAux m bf af c1 c2 fuel r2
    else c :: expandSubstAux m bf af c1 c2 fuel r

/-- The expansion of a whole replacement template; the fuel of the scan
is an upper bound on the scan position, and the template length is
enough since every step consumes at least one character. -/
def expandSubst (m bf af c1 c2 t : Text) : Text := expandSubstAux m bf af c1 c2 t.length t

/-- The replace of line 138 over the decomposed block: the first line
whose content starts with the literal UID: is the first match of the
multiline regex, the lazy first group captures the whole remainder of
the line content (contents hold no terminator characters), and the
optional second group captures a carriage return exactly when one
directly precedes a line boundary, in which case the matched span
includes it.  The replacement template, which embeds the line-135 value
and therefore may contain dollar sequences, is expanded by
GetSubstitution against the match: the matched text, the text before
the match (accumulated in pre), the text after the match, and the two
captures.  The expanded text replaces the matched span; nothing is
restored, so the terminator behaviour equals that of rewriteFirstBy. -/
def uidRewriteAux (tmpl : Text) (pre : Text) : List Line → Text
  | [] => []
  | (c, s) :: rest =>
    if isPre uidColon c then
      let c1 := c.drop uidColon.length
      match s with
      | .crlf => expandSubst (c ++ ['\r']) pre ('\n' :: joinLines rest) c1 ['\r'] tmpl ++
          '\n' :: joinLines rest
      | .lf => expandSubst c pre ('\n' :: joinLines rest) c1 [] tmpl ++ '\n' :: joinLines rest
      | .eos => expandSubst c pre (joinLines rest) c1 [] tmpl ++ joinLines rest
      | .cr =>
        match rest with
        | ([], s2) :: r2 =>
          expandSubst (c ++ ['\r']) pre (joinLines (([], s2) :: r2)) c1 ['\r'] tmpl ++
            joinLines (([], s2) :: r2)
        | [] => expandSubst (c ++ ['\r']) pre [] c1 ['\r'] tmpl
        | _ => expandSubst c pre ('\r' :: joinLines rest) c1 [] tmpl ++
            '\r' :: joinLines rest
    else c ++ sepText s ++ uidRewriteAux tmpl (pre ++ c ++ sepText s) rest

/-- Step 4c of the source (lines 134 to 148): when more than one
occurrence is produced, a truthy UID value is suffixed through a replace
of the first plain UID line; the replacement string embeds that value,
so String.replace applies GetSubstitution to it and dollar sequences in
the value are expanded against the match.  A block without a truthy UID
value gets a synthesized identifier inserted before the first occurrence
of the literal END:VEVENT, or appended when that literal is absent; the
synthesized replacement of line 143 contains no dollar sign, so its
GetSubstitution expansion is the identity and the insertion is literal. -/
def uidStage (rc : Int) (i index : Nat) (now : Int) (b : Text) : Text :=
  if 1 < rc then
    let uv := getLineValue b uidKeyT
    if jsTruthy uv then
      let v := uv.getD []
      uidRewriteAux (uidColon ++ v ++ '-' :: 'W' :: natToStr i) [] (splitLines b)
    else
      let gen := genUid index i now
      if containsSub endMarker b then
        match splitFirstSub endMarker b with
        | some (a, z) => a ++ uidColon ++ gen ++ '\r' :: '\n' :: (endMarker ++ z)
        | none => b
      else b ++ '\r' :: '\n' :: (uidColon ++ gen)
  else b

/-- Step 4d of the source (lines 151 to 153): when weekly expansion is
enabled, the first plain RRULE line is removed with its terminator. -/
def rruleStage (w : Bool) (b : Text) : Text :=
  if w then joinLines (deleteFirstBy (fun c => isPre rruleColon c) (splitLines b)) else b

/-- One pass of the inner loop of lines 106 to 155 over one block. -/
def processBlock (off : JsNum) (w : Bool) (rc : Int) (now : Int) (i index : Nat) (b : Text) : Text :=
  rruleStage w (uidStage rc i index now (dtStage dtendKeyT off (weekMs i)
    (dtStage dtstartKeyT off (weekMs i) b)))

/-! ## Whole-document pipeline -/

/-- Step 2 of the source (lines 56 to 67): the extracted blocks, or a
single synthetic block wrapping the whole cleaned text when none is
found. -/
def eventBlocksOf (clean : Text) : List Text :=
  match extractBlocks clean with
  | [] => [beginMarker ++ '\r' :: '\n' :: (clean ++ '\r' :: '\n' :: endMarker)]
  | bs => bs

/-- The fold of lines 79 to 89: the earliest Date among the truthy,
non-null DTSTART values of the blocks, where a comparison against an
invalid Date is false. -/
def earliestStart (blocks : List Text) : Option JsNum :=
  blocks.foldl (fun acc b =>
    let v := getLineValue b dtstartKeyT
    if jsTruthy v then
      match parseIcsDate (v.getD []) with
      | some d => if acc.isNone || jsLtB d (acc.getD none) then some d else acc
      | none => acc
    else acc) none

/-- Step 3 of the source (lines 70 to 95): zero when no anchor is given
or no block has a parseable start; otherwise anchor minus earliest. -/
def timeOffset (blocks : List Text) (sd : Option Int) : JsNum :=
  match sd with
  | none => some 0
  | some target =>
    match earliestStart blocks with
    | none => some 0
    | some e => jsSub (some target) e

/-- Options record of the source (lines 3 to 7).  The startDate field is
the already-parsed local timestamp of the caller-contract value of shape
YYYY-MM-DDTHH:mm that the Date constructor of line 92 produces. -/
structure ProcessOptions where
  startDate : Option Int := none
  isWeekly : Bool := false
  weeklyCount : Option Int := none
deriving DecidableEq, Repr

/-- Line 99 of the source: weeklyCount when isWeekly is set and the
count is truthy (nonzero), else one. -/
def repeatCount (o : ProcessOptions) : Int :=
  if o.isWeekly then
    match o.weeklyCount with
    | some w => if w = 0 then 1 else w
    | none => 1
  else 1

/-- The expanded occurrence-by-block list of lines 98 to 157, outer loop
over occurrences, inner loop over blocks in document order. -/
def finalEvents (input : Text) (o : ProcessOptions) (now : Int) : List Text :=
  (List.range (repeatCount o).toNat).flatMap (fun i =>
    (eventBlocksOf (cleanText input)).enum.map (fun bi =>
      processBlock (timeOffset (eventBlocksOf (cleanText input)) o.startDate)
        o.isWeekly (repeatCount o) now i bi.1 bi.2))

/-- Result record of the source.  Modelled from the spec: the file
src/types.ts is not in the repository snapshot; its shape is fixed by
the resolve call of lines 177 to 181 and by section 3 of the spec. -/
structure IcsGenerationResult where
  icsContent : Text
  filename : Text
  summary : Text
deriving DecidableEq, Repr

def placeholderSummary : Text := ("Exported Schedule").data

def vcalHeader : Text :=
  ("BEGIN:VCALENDAR\r\nVERSION:2.0\r\nPRODID:-//ICS Magic Converter//Expanded Generator//EN\r\nCALSCALE:GREGORIAN").data

def vcalFooter : Text := ("END:VCALENDAR").data

/-- One character of the slug replace of line 173: characters other than
ASCII letters and digits become underscores. -/
def slugChar (c : Char) : Char := if c.isAlphanum then c else '_'

def intercalate (sep : Text) : List Text → Text
  | [] => []
  | [t] => t
  | t :: r => t ++ sep ++ intercalate sep r

/-- Model of generateIcsFromText (lines 50 to 188).  The now argument is
the Date.now() generation timestamp read during UID synthesis.  The none
result models the rejected promise: when the expansion produced no
blocks (possible only for a negative repeat count), line 160 reads a
field of an undefined element and the thrown error is caught and turned
into a rejection; no other path rejects. -/
def generateIcsFromText (input : Text) (o : ProcessOptions) (now : Int) :
    Option IcsGenerationResult :=
  match finalEvents input o now with
  | [] => none
  | e0 :: rest =>
    let sv := getLineValue e0 summaryKeyT
    let summary := if jsTruthy sv then sv.getD [] else placeholderSummary
    let rc := repeatCount o
    let full := vcalHeader ++ '\r' :: '\n' ::
      (intercalate ('\r' :: '\n' :: []) (e0 :: rest) ++ '\r' :: '\n' :: vcalFooter)
    let safe := (((jsTrim summary).map slugChar).map Char.toLower).take 30
    some { icsContent := full
         , filename := safe ++ '_' :: (intToStr rc ++ ("weeks.ics").data)
         , summary := summary ++ (" (x").data ++ intToStr rc ++ (" weeks)").data }

/-! ## Well-formed line decompositions -/

/-- Content with no terminator characters. -/
def cleanContent (c : Text) : Bool := c.all (fun ch => ch ≠ '\r' && ch ≠ '\n')

/-- A lone-CR terminator directly followed by an empty LF-terminated
line would coalesce into a CRLF when the lines are joined back to
text; every other junction survives a round trip. -/
def okJunction : Sep → List Line → Bool
  | .cr, ([], .lf) :: _ => false
  | _, _ => true

/-- Characterizes the decompositions produced by splitLines:
terminator-free contents, the end-of-text marker exactly on the last
line, and no coalescing junction. -/
def wfLines : List Line → Bool
  | [] => false
  | (c, s) :: rest =>
    cleanContent c &&
      match rest with
      | [] => decide (s = Sep.eos)
      | _ :: _ => (decide (s ≠ Sep.eos) && okJunction s rest) && wfLines rest

/-- Every carriage return in the text is directly followed by a line
feed: the text contains no lone-CR line terminator. -/
def noLoneCr : Text → Bool
  | [] => true
  | c :: r =>
    if c = '\r' then
      match r with
      | [] => false
      | d :: _ => d = '\n' && noLoneCr r
    else noLoneCr r

/-- Lines whose contents are terminator-free and whose separator is
never a lone CR. -/
def okCrLines (ls : List Line) : Bool :=
  ls.all (fun ln => cleanContent ln.1 && decide (ln.2 ≠ Sep.cr))

/-- The terminator-normalization property claimed by the spec: every
line terminator of the text is the two-character CRLF sequence (the
last line ends at the end of the text). -/
def allCrlfTerm (t : Text) : Bool :=
  (splitLines t).all (fun ln => decide (ln.2 = Sep.crlf ∨ ln.2 = Sep.eos))

/-- A line content that one of the per-block replaces of lines 110 to
153 may target: a start or end field line (parameter-aware regex), a
plain UID or RRULE line, or an empty line (the residue the RRULE strip
can leave behind).  Lines outside this set are the frame the per-block
processing must not touch. -/
def specialLine (c : Text) : Bool :=
  (matchKey dtstartKeyT c).isSome || (matchKey dtendKeyT c).isSome ||
    isPre uidColon c || isPre rruleColon c || decide (c = [])

/-- The non-special line contents of a decomposition, in order. -/
def othersOf (ls : List Line) : List Text :=
  (ls.map Prod.fst).filter (fun c => !specialLine c)

/-! ## Sample inputs used by concrete witnesses and counterexamples -/

/-- Two-block input with LF line endings where both blocks carry the
same UID value. -/
def sampleDupUids : Text :=
  ("BEGIN:VEVENT\nUID:x\nEND:VEVENT\nBEGIN:VEVENT\nUID:x\nEND:VEVENT").data

/-- One block with a plain UID line. -/
def samplePlainUid : Text := ("BEGIN:VEVENT\nUID:abc\nEND:VEVENT").data

/-- Synthetic fallback block of the input X END:VEVENT Y: the literal
END:VEVENT occurs in the middle of a content line. -/
def sampleC10Block : Text := ("BEGIN:VEVENT\r\nX END:VEVENT Y\r\nEND:VEVENT").data

/-- Scenario input of section 8 of the spec: one event block with LF
line endings, a start, an end and a summary, and no UID. -/
def sampleEvent : Text :=
  ("BEGIN:VEVENT\nDTSTART:20240101T090000\nDTEND:20240101T100000\nSUMMARY:Standup\nEND:VEVENT").data

/-- The exact textual shape YYYYMMDDTHHMM00 demanded by the spec for a
rewritten timestamp value: a four-digit year, two-digit month, day,
hour and minute, a literal T separator, and literal zeroed seconds. -/
def icsShape (s : Text) : Prop :=
  ∃ y mo dy h mi : Text,
    s = y ++ mo ++ dy ++ 'T' :: (h ++ mi ++ ('0' :: '0' :: [])) ∧
    y.length = 4 ∧ mo.length = 2 ∧ dy.length = 2 ∧ h.length = 2 ∧ mi.length = 2 ∧
    (y ++ mo ++ dy ++ h ++ mi).all Char.isDigit = true

/-- Two-block input with LF line endings and start times one day apart. -/
def sampleTwoEvents : Text :=
  ("BEGIN:VEVENT\nDTSTART:20240101T090000\nEND:VEVENT\nBEGIN:VEVENT\nDTSTART:20240102T090000\nEND:VEVENT").data

/-! ## Basic structural lemmas -/

theorem findEndMarker_rest_len :
    ∀ {t a rest : Text}, findEndMarker t = some (a, rest) → rest.length ≤ t.length := by
  intro t
  induction t with
  | nil => intro a rest h; simp [findEndMarker] at h
  | cons c r ih =>
    intro a rest h
    unfold findEndMarker at h
    by_cases hp : isPre endMarker (c :: r) = true
    · simp [hp] at h
      obtain ⟨_, h2⟩ := h
      subst h2
      simp [List.length_drop]
    · simp [hp] at h
      cases hm : findEndMarker r with
      | none => rw [hm] at h; simp at h
      | some pr =>
        rw [hm] at h
        cases pr with
        | mk a2 rest2 =>
          simp at h
          obtain ⟨_, h2⟩ := h
          subst h2
          have := ih hm
          simp
          omega


theorem extractBlocksAux_nil (fuel : Nat) : extractBlocksAux fuel [] = [] := by
  cases fuel <;> rfl


theorem extractBlocksAux_congr :
    ∀ f1 : Nat, ∀ f2 : Nat, ∀ t : Text, t.length ≤ f1 → t.length ≤ f2 →
      extractBlocksAux f1 t = extractBlocksAux f2 t := by
  intro f1
  induction f1 using Nat.strong_induction_on with
  | _ f1 ih =>
    intro f2 t h1 h2
    match f1, f2, t with
    | _, _, [] => rw [extractBlocksAux_nil, extractBlocksAux_nil]
    | 0, _, c :: r => simp at h1
    | _ + 1, 0, c :: r => simp at h2
    | g1 + 1, g2 + 1, c :: r =>
      simp only [extractBlocksAux]
      by_cases hb : isPre beginMarker (c :: r) = true
      · simp only [hb, if_true]
        cases hm : findEndMarker ((c :: r).drop beginMarker.length) with
        | none => rfl
        | some pr =>
          cases pr with
          | mk mid rest =>
            have hr := findEndMarker_rest_len hm
            simp only [List.length_drop, List.length_cons] at hr
            simp only [List.length_cons] at h1 h2
            have hbm : 1 ≤ beginMarker.length := by decide
            have hrg1 : rest.length ≤ g1 := by omega
            have hrg2 : rest.length ≤ g2 := by omega
            show (beginMarker ++ mid) :: extractBlocksAux g1 rest =
              (beginMarker ++ mid) :: extractBlocksAux g2 rest
            rw [ih g1 (by omega) g2 rest hrg1 hrg2]
      · simp only [hb, if_false]
        simp only [List.length_cons] at h1 h2
        exact ih g1 (by omega) g2 r (by omega) (by omega)


theorem extractBlocks_eq (fuel : Nat) (t : Text) (h : t.length ≤ fuel) :
    extractBlocksAux fuel t = extractBlocks t :=
  extractBlocksAux_congr fuel t.length t h (Nat.le_refl _)


theorem natToStrAux_congr :
    ∀ f1 : Nat, ∀ f2 : Nat, ∀ n : Nat, n < 10 ^ f1 → n < 10 ^ f2 →
      0 < f1 → 0 < f2 → natToStrAux f1 n = natToStrAux f2 n := by
  intro f1
  induction f1 with
  | zero => intro f2 n _ _ h; omega
  | succ g1 ih =>
    intro f2 n h1 h2 _ hf2
    match f2 with
    | 0 => omega
    | g2 + 1 =>
      simp only [natToStrAux]
      by_cases hn : n < 10
      · simp [hn]
      · simp only [hn, if_false]
        have hd1 : n / 10 < 10 ^ g1 := by
          rw [pow_succ] at h1
          omega
        have hd2 : n / 10 < 10 ^ g2 := by
          rw [pow_succ] at h2
          omega
        have hg1 : 0 < g1 := by
          by_contra hc
          have : g1 = 0 := by omega
          subst this
          simp at h1
          omega
        have hg2 : 0 < g2 := by
          by_contra hc
          have : g2 = 0 := by omega
          subst this
          simp at h2
          omega
        rw [ih g2 (n / 10) hd1 hd2 hg1 hg2]


theorem natToStr_eq (fuel n : Nat) (h : n < 10 ^ fuel) (hf : 0 < fuel) :
    natToStrAux fuel n = natToStr n := by
  unfold natToStr
  have h1 : n < 10 ^ n := Nat.lt_pow_self (by omega) n
  have h2 : (10 : Nat) ^ n ≤ 10 ^ (n + 1) := Nat.pow_le_pow_right (by omega) (by omega)
  exact natToStrAux_congr fuel (n + 1) n h (by omega) hf (by omega)

theorem gen_cleanText_congr (t1 t2 : Text) (o : ProcessOptions) (now : Int)
    (h : cleanText t1 = cleanText t2) :
    generateIcsFromText t1 o now = generateIcsFromText t2 o now := by
  unfold generateIcsFromText finalEvents
  rw [h]

theorem gen_opts_congr (t : Text) (o1 o2 : ProcessOptions) (now : Int)
    (h1 : repeatCount o1 = repeatCount o2) (h2 : o1.isWeekly = o2.isWeekly)
    (h3 : o1.startDate = o2.startDate) :
    generateIcsFromText t o1 now = generateIcsFromText t o2 now := by
  unfold generateIcsFromText finalEvents
  rw [h1, h2, h3]

theorem eventBlocksOf_length_pos (clean : Text) : 1 ≤ (eventBlocksOf clean).length := by
  unfold eventBlocksOf
  cases h : extractBlocks clean <;> simp

theorem range_flatMap_enum_length {α β : Type} (n : Nat) (L : List α)
    (f : Nat → Nat × α → β) :
    ((List.range n).flatMap (fun i => L.enum.map (f i))).length = n * L.length := by
  induction n with
  | zero => simp
  | succ k ih =>
    rw [List.range_succ, List.flatMap_append]
    simp [ih, Nat.succ_mul, List.enum_length]

theorem finalEvents_length (t : Text) (o : ProcessOptions) (now : Int) :
    (finalEvents t o now).length =
      (repeatCount o).toNat * (eventBlocksOf (cleanText t)).length := by
  unfold finalEvents
  exact range_flatMap_enum_length _ _ _

theorem finalEvents_nonempty (t : Text) (o : ProcessOptions) (now : Int)
    (h : 0 < repeatCount o) : finalEvents t o now ≠ [] := by
  intro he
  have h1 := finalEvents_length t o now
  rw [he] at h1
  have h2 := eventBlocksOf_length_pos (cleanText t)
  have h3 : 0 < (repeatCount o).toNat := by omega
  have hp := Nat.mul_pos h3 (by omega : 0 < (eventBlocksOf (cleanText t)).length)
  simp only [List.length_nil] at h1
  omega

/-! ## Claim C1 -/

/-- Claim C1 counterexample: the empty input is not rejected; the
service resolves with a concrete GenerationResult built from a synthetic
empty block and the placeholder summary. -/
theorem c1_counterexample :
    generateIcsFromText [] {} 0 =
      some { icsContent := ("BEGIN:VCALENDAR\r\nVERSION:2.0\r\nPRODID:-//ICS Magic Converter//Expanded Generator//EN\r\nCALSCALE:GREGORIAN\r\nBEGIN:VEVENT\r\n\r\nEND:VEVENT\r\nEND:VCALENDAR").data
           , filename := ("exported_schedule_1weeks.ics").data
           , summary := ("Exported Schedule (x1 weeks)").data } := by
  rfl

/-- Claim C1 (amended): an input whose trimmed text is empty is not
rejected and aborts nothing; it is processed exactly like the empty
string, and whenever the effective repeat count is positive the call
resolves with a GenerationResult (built from a synthetic block and the
placeholder summary).  No empty-input failure exists in the engine; the
caller merely skips the call on empty input without surfacing any
message. -/
theorem c1_empty_input_processed (t : Text) (o : ProcessOptions) (now : Int)
    (h : jsTrim t = []) (hrc : 0 < repeatCount o) :
    generateIcsFromText t o now = generateIcsFromText [] o now ∧
      (generateIcsFromText t o now).isSome = true := by
  have hc : cleanText t = cleanText [] := by
    unfold cleanText
    rw [h]
    rfl
  have h1 := gen_cleanText_congr t [] o now hc
  refine ⟨h1, ?_⟩
  rw [h1]
  have h2 := finalEvents_nonempty [] o now hrc
  unfold generateIcsFromText
  cases hev : finalEvents [] o now with
  | nil => exact absurd hev h2
  | cons e0 rest => simp

/-- Claim C1 witness: the amended theorem applied to a whitespace-only
input with default options. -/
theorem c1_witness :
    jsTrim ((" ").data) = [] ∧ 0 < repeatCount {} ∧
      (generateIcsFromText ((" ").data) {} 0 = generateIcsFromText [] {} 0 ∧
        (generateIcsFromText ((" ").data) {} 0).isSome = true) :=
  ⟨by decide, by decide, c1_empty_input_processed ((" ").data) {} 0 (by decide) (by decide)⟩

/-! ## Claim C4 -/

/-- Claim C4 counterexample: with isWeekly set, a negative weeklyCount
does not behave as count one; the call rejects (none) while count one
resolves. -/
theorem c4_counterexample :
    generateIcsFromText sampleEvent ⟨none, true, some (-1)⟩ 0 = none ∧
      (generateIcsFromText sampleEvent ⟨none, true, some 1⟩ 0).isSome = true := by
  constructor
  · rfl
  · rfl

/-- Claim C4 (amended): with isWeekly set, a weeklyCount of zero and an
absent weeklyCount each behave exactly as count one, but a negative
weeklyCount produces zero occurrence units and the invocation rejects
with no result. -/
theorem c4_nonpositive_count (t : Text) (sd : Option Int) (now : Int) :
    generateIcsFromText t ⟨sd, true, some 0⟩ now = generateIcsFromText t ⟨sd, true, some 1⟩ now ∧
    generateIcsFromText t ⟨sd, true, none⟩ now = generateIcsFromText t ⟨sd, true, some 1⟩ now ∧
    ∀ w : Int, w < 0 → generateIcsFromText t ⟨sd, true, some w⟩ now = none := by
  refine ⟨gen_opts_congr _ _ _ _ (by simp [repeatCount]) rfl rfl,
    gen_opts_congr _ _ _ _ (by simp [repeatCount]) rfl rfl, ?_⟩
  intro w hw
  have hw0 : w ≠ 0 := by omega
  have hrc : repeatCount ⟨sd, true, some w⟩ = w := by
    simp [repeatCount, hw0]
  have hz : (repeatCount ⟨sd, true, some w⟩).toNat = 0 := by
    rw [hrc]; omega
  have hev : finalEvents t ⟨sd, true, some w⟩ now = [] := by
    unfold finalEvents
    rw [hz]
    simp
  unfold generateIcsFromText
  rw [hev]

/-- Claim C4 witness: the amended theorem at a concrete input, with the
negative branch instantiated at minus two. -/
theorem c4_witness :
    generateIcsFromText sampleEvent ⟨none, true, some 0⟩ 3 =
        generateIcsFromText sampleEvent ⟨none, true, some 1⟩ 3 ∧
      generateIcsFromText sampleEvent ⟨none, true, some (-2)⟩ 3 = none :=
  ⟨(c4_nonpositive_count sampleEvent none 3).1,
    (c4_nonpositive_count sampleEvent none 3).2.2 (-2) (by decide)⟩

/-! ## Claim C5 -/

/-- Claim C5 counterexample: with isWeekly set and weeklyCount minus
one, the number of produced occurrence-by-block units is zero, not the
count times the number of extracted blocks. -/
theorem c5_counterexample :
    ((finalEvents (("X").data) ⟨none, true, some (-1)⟩ 0).length : Int) ≠
      repeatCount ⟨none, true, some (-1)⟩ *
        ((eventBlocksOf (cleanText (("X").data))).length : Int) := by
  decide

/-- Claim C5 (amended): the extractor always yields at least one block
(a synthetic block wrapping the whole text when no event markers are
found), and whenever the effective repeat count is nonnegative the
number of produced occurrence-by-block output units equals that count
times the number of extracted blocks; a negative weeklyCount instead
yields zero units. -/
theorem c5_output_units (t : Text) (o : ProcessOptions) (now : Int)
    (h : 0 ≤ repeatCount o) :
    1 ≤ (eventBlocksOf (cleanText t)).length ∧
      ((finalEvents t o now).length : Int) =
        repeatCount o * ((eventBlocksOf (cleanText t)).length : Int) := by
  refine ⟨eventBlocksOf_length_pos _, ?_⟩
  rw [finalEvents_length]
  push_cast
  rw [Int.toNat_of_nonneg h]

/-- Claim C5 witness: the amended theorem at the sample input with three
weekly occurrences. -/
theorem c5_witness :
    1 ≤ (eventBlocksOf (cleanText sampleEvent)).length ∧
      ((finalEvents sampleEvent ⟨none, true, some 3⟩ 0).length : Int) =
        repeatCount ⟨none, true, some 3⟩ *
          ((eventBlocksOf (cleanText sampleEvent)).length : Int) :=
  c5_output_units sampleEvent ⟨none, true, some 3⟩ 0 (by decide)

/-! ## Claim C8 -/

/-- Claim C8 counterexample: without recurrence (count one) the filename
still carries the occurrence-count suffix and the summary is still
annotated, contradicting the only-when-count-above-one claim. -/
theorem c8_counterexample :
    (generateIcsFromText sampleEvent {} 0).map IcsGenerationResult.filename =
        some (("standup_1weeks.ics").data) ∧
      (generateIcsFromText sampleEvent {} 0).map IcsGenerationResult.summary =
        some (("Standup (x1 weeks)").data) ∧
      ("standup_1weeks.ics").data ≠ ("standup").data ++ ((".ics").data) := by
  refine ⟨rfl, rfl, by decide⟩

/-- Claim C8 (amended): for every produced result the filename is the
slugified summary (non-alphanumerics replaced by underscores,
lowercased, truncated to thirty characters) followed unconditionally by
an underscore, the occurrence count, and weeks.ics, and the summary is
unconditionally annotated with the occurrence count — the suffix and
annotation appear even when no recurrence was requested. -/
theorem c8_filename_summary_shape (t : Text) (o : ProcessOptions) (now : Int)
    (r : IcsGenerationResult) (h : generateIcsFromText t o now = some r) :
    ∃ s : Text,
      r.summary = s ++ (" (x").data ++ intToStr (repeatCount o) ++ ((" weeks)").data) ∧
      r.filename = (((jsTrim s).map slugChar).map Char.toLower).take 30 ++
        '_' :: (intToStr (repeatCount o) ++ (("weeks.ics").data)) := by
  unfold generateIcsFromText at h
  cases hev : finalEvents t o now with
  | nil => rw [hev] at h; simp at h
  | cons e0 rest =>
    rw [hev] at h
    simp only [Option.some.injEq] at h
    subst h
    exact ⟨_, rfl, rfl⟩

/-- Claim C8 witness: the amended theorem at the sample input with
default options. -/
theorem c8_witness :
    ∃ s : Text,
      (("Standup (x1 weeks)").data) = s ++ (" (x").data ++ intToStr (repeatCount {}) ++ ((" weeks)").data) ∧
      (("standup_1weeks.ics").data) = (((jsTrim s).map slugChar).map Char.toLower).take 30 ++
        '_' :: (intToStr (repeatCount {}) ++ (("weeks.ics").data)) := by
  have h := c8_filename_summary_shape sampleEvent {} 0
    { icsContent := ("BEGIN:VCALENDAR\r\nVERSION:2.0\r\nPRODID:-//ICS Magic Converter//Expanded Generator//EN\r\nCALSCALE:GREGORIAN\r\nBEGIN:VEVENT\r\nDTSTART:20240101T090000\nDTEND:20240101T100000\nSUMMARY:Standup\r\nEND:VEVENT\r\nEND:VCALENDAR").data
    , filename := ("standup_1weeks.ics").data
    , summary := ("Standup (x1 weeks)").data } rfl
  exact h

/-! ## Round-trip lemmas for the line decomposition -/

theorem splitLines_ne_nil (t : Text) : splitLines t ≠ [] := by
  induction t using splitLines.induct <;> simp_all [splitLines]

theorem splitLines_cons_notterm (c : Char) (u : Text) (h1 : c ≠ '\r') (h2 : c ≠ '\n') :
    splitLines (c :: u) =
      match splitLines u with
      | (l, s) :: rest => ((c :: l), s) :: rest
      | [] => [([c], .eos)] := by
  conv_lhs => unfold splitLines
  simp [h1, h2]

theorem splitLines_append_clean :
    ∀ (c : Text) {u f : Text} {s : Sep} {r : List Line}, cleanContent c = true →
      splitLines u = (f, s) :: r → splitLines (c ++ u) = (c ++ f, s) :: r := by
  intro c
  induction c with
  | nil =>
    intro u f s r _ h
    simpa using h
  | cons ch c2 ih =>
    intro u f s r hc h
    have hch : ch ≠ '\r' ∧ ch ≠ '\n' := by
      simp [cleanContent] at hc
      exact ⟨hc.1.1, hc.1.2⟩
    have hc2 : cleanContent c2 = true := by
      simp [cleanContent] at hc ⊢
      exact hc.2
    have := ih hc2 h
    rw [List.cons_append, splitLines_cons_notterm ch (c2 ++ u) hch.1 hch.2, this]
    rfl

theorem splitLines_crlf (r : Text) :
    splitLines ('\r' :: '\n' :: r) = ([], .crlf) :: splitLines r := rfl

theorem splitLines_lf (r : Text) :
    splitLines ('\n' :: r) = ([], .lf) :: splitLines r := rfl

theorem splitLines_cr (r : Text) (h : ∀ r2 : Text, r ≠ '\n' :: r2) :
    splitLines ('\r' :: r) = ([], .cr) :: splitLines r := by
  cases r with
  | nil => rfl
  | cons a r2 =>
    by_cases ha : a = '\n'
    · subst ha
      exact absurd rfl (h r2)
    · conv_lhs => unfold splitLines
      simp [ha]

theorem joinLines_splitLines (t : Text) : joinLines (splitLines t) = t := by
  induction t using splitLines.induct with
  | case1 => rfl
  | case2 r ih =>
    rw [splitLines_crlf]
    simp [joinLines, sepText, ih]
  | case3 r hcon ih =>
    rw [splitLines_cr r hcon]
    simp [joinLines, sepText, ih]
  | case4 r ih =>
    rw [splitLines_lf]
    simp [joinLines, sepText, ih]
  | case5 c r hcon h2 h3 l s rest heq ih =>
    rw [splitLines_cons_notterm c r h2 h3, heq]
    rw [heq] at ih
    show (c :: l) ++ sepText s ++ joinLines rest = c :: r
    simp only [List.cons_append]
    rw [show l ++ sepText s ++ joinLines rest = joinLines ((l, s) :: rest) from rfl]
    rw [ih]
  | case6 c r hcon h2 h3 heq ih =>
    exact absurd heq (splitLines_ne_nil r)

theorem splitLines_clean_single (c : Text) (hc : cleanContent c = true) :
    splitLines c = [(c, .eos)] := by
  have := splitLines_append_clean c (u := []) (f := []) (s := .eos) (r := []) hc rfl
  simpa using this

theorem splitLines_eq_lf_cons (t : Text) (rest : List Line)
    (h : splitLines t = ([], Sep.lf) :: rest) : ∃ r2 : Text, t = '\n' :: r2 := by
  cases t with
  | nil => simp [splitLines] at h
  | cons a r =>
    by_cases ha : a = '\r'
    · subst ha
      cases r with
      | nil => simp [splitLines] at h
      | cons b r2 =>
        by_cases hb : b = '\n'
        · subst hb
          rw [splitLines_crlf] at h
          simp at h
        · rw [splitLines_cr (b :: r2) (by intro x hx; injection hx with h1; exact hb h1)] at h
          simp at h
    · by_cases ha2 : a = '\n'
      · exact ⟨r, by rw [ha2]⟩
      · rw [splitLines_cons_notterm a r ha ha2] at h
        cases hs : splitLines r with
        | nil => exact absurd hs (splitLines_ne_nil r)
        | cons p rest2 =>
          rw [hs] at h
          cases p with
          | mk l s => simp at h

theorem okJunction_cr_of_splitLines (r : Text) (hcon : ∀ r2 : Text, r ≠ '\n' :: r2) :
    okJunction .cr (splitLines r) = true := by
  cases hs : splitLines r with
  | nil => rfl
  | cons p rest =>
    cases p with
    | mk l s =>
      cases l with
      | cons a l2 => rfl
      | nil =>
        cases s with
        | lf =>
          obtain ⟨r2, hr2⟩ := splitLines_eq_lf_cons r rest hs
          exact absurd hr2 (hcon r2)
        | crlf => rfl
        | cr => rfl
        | eos => rfl

theorem wfLines_cons_cons (c : Text) (s : Sep) (q : Line) (rest : List Line) :
    wfLines ((c, s) :: q :: rest) =
      (cleanContent c &&
        ((decide (s ≠ Sep.eos) && okJunction s (q :: rest)) && wfLines (q :: rest))) := rfl

theorem wfLines_single (c : Text) (s : Sep) :
    wfLines [(c, s)] = (cleanContent c && decide (s = Sep.eos)) := rfl

theorem okJunction_not_cr (s : Sep) (ls : List Line) (h : s ≠ Sep.cr) :
    okJunction s ls = true := by
  cases s with
  | cr => exact absurd rfl h
  | crlf => cases ls with
    | nil => rfl
    | cons p r => cases p with | mk l s2 => cases l <;> cases s2 <;> rfl
  | lf => cases ls with
    | nil => rfl
    | cons p r => cases p with | mk l s2 => cases l <;> cases s2 <;> rfl
  | eos => cases ls with
    | nil => rfl
    | cons p r => cases p with | mk l s2 => cases l <;> cases s2 <;> rfl

theorem splitLines_wf (t : Text) : wfLines (splitLines t) = true := by
  induction t using splitLines.induct with
  | case1 => rfl
  | case2 r ih =>
    rw [splitLines_crlf]
    cases hs : splitLines r with
    | nil => exact absurd hs (splitLines_ne_nil r)
    | cons p rest =>
      rw [hs] at ih
      rw [wfLines_cons_cons]
      simp [cleanContent, okJunction_not_cr, ih]
  | case3 r hcon ih =>
    rw [splitLines_cr r hcon]
    have hok := okJunction_cr_of_splitLines r hcon
    cases hs : splitLines r with
    | nil => exact absurd hs (splitLines_ne_nil r)
    | cons p rest =>
      rw [hs] at ih hok
      rw [wfLines_cons_cons]
      simp [cleanContent, hok, ih]
  | case4 r ih =>
    rw [splitLines_lf]
    cases hs : splitLines r with
    | nil => exact absurd hs (splitLines_ne_nil r)
    | cons p rest =>
      rw [hs] at ih
      rw [wfLines_cons_cons]
      simp [cleanContent, okJunction_not_cr, ih]
  | case5 c r hcon h2 h3 l s rest heq ih =>
    rw [splitLines_cons_notterm c r h2 h3, heq]
    rw [heq] at ih
    cases rest with
    | nil =>
      rw [wfLines_single] at ih ⊢
      simp only [cleanContent, List.all_cons, Bool.and_eq_true, decide_eq_true_eq] at ih ⊢
      exact ⟨⟨⟨h2, h3⟩, ih.1⟩, ih.2⟩
    | cons q rest2 =>
      rw [wfLines_cons_cons] at ih ⊢
      simp only [cleanContent, List.all_cons, Bool.and_eq_true, decide_eq_true_eq] at ih ⊢
      exact ⟨⟨⟨h2, h3⟩, ih.1⟩, ih.2⟩
  | case6 c r hcon h2 h3 heq ih =>
    exact absurd heq (splitLines_ne_nil r)

theorem joinLines_not_lf_head (ls : List Line) (hwf : wfLines ls = true)
    (hok : okJunction .cr ls = true) : ∀ r2 : Text, joinLines ls ≠ '\n' :: r2 := by
  intro r2
  cases ls with
  | nil => simp [joinLines]
  | cons p rest =>
    cases p with
    | mk c s =>
      cases c with
      | cons a c2 =>
        simp only [wfLines, cleanContent, List.all_cons, Bool.and_eq_true] at hwf
        have ha : a ≠ '\n' := by
          have := hwf.1.1
          simp at this
          exact this.2
        simp only [joinLines, List.cons_append]
        intro h
        injection h with h1
        exact ha h1
      | nil =>
        cases s with
        | lf => simp [okJunction] at hok
        | crlf => simp [joinLines, sepText]
        | cr => simp [joinLines, sepText]
        | eos =>
          cases rest with
          | nil => simp [joinLines, sepText]
          | cons q rest2 =>
            simp only [wfLines, cleanContent] at hwf
            simp at hwf

theorem splitLines_joinLines (ls : List Line) (hwf : wfLines ls = true) :
    splitLines (joinLines ls) = ls := by
  induction ls with
  | nil => simp [wfLines] at hwf
  | cons p rest ih =>
    cases p with
    | mk c s =>
      cases rest with
      | nil =>
        simp only [wfLines, Bool.and_eq_true, decide_eq_true_eq] at hwf
        obtain ⟨hc, hs⟩ := hwf
        subst hs
        show splitLines (c ++ sepText .eos ++ joinLines []) = [(c, .eos)]
        simp only [sepText, joinLines, List.append_nil]
        exact splitLines_clean_single c hc
      | cons q rest2 =>
        rw [wfLines_cons_cons] at hwf
        simp only [Bool.and_eq_true, decide_eq_true_eq] at hwf
        obtain ⟨hc, ⟨hse, hok⟩, hwfr⟩ := hwf
        have hr := ih hwfr
        have hmid : splitLines (sepText s ++ joinLines (q :: rest2)) =
            ([], s) :: (q :: rest2) := by
          cases s with
          | eos => exact absurd rfl hse
          | crlf =>
            show splitLines ('\r' :: '\n' :: joinLines (q :: rest2)) = _
            rw [splitLines_crlf, hr]
          | lf =>
            show splitLines ('\n' :: joinLines (q :: rest2)) = _
            rw [splitLines_lf, hr]
          | cr =>
            show splitLines ('\r' :: joinLines (q :: rest2)) = _
            rw [splitLines_cr _ (joinLines_not_lf_head (q :: rest2) hwfr hok), hr]
        show splitLines (c ++ sepText s ++ joinLines (q :: rest2)) = (c, s) :: q :: rest2
        rw [List.append_assoc]
        rw [splitLines_append_clean c hc hmid]
        simp

/-! ## Preservation lemmas for the line rewriting combinators -/

theorem wfLines_cons_elim {c : Text} {s : Sep} {rest : List Line}
    (h : wfLines ((c, s) :: rest) = true) :
    cleanContent c = true ∧
      ((rest = [] ∧ s = .eos) ∨
        (rest ≠ [] ∧ s ≠ .eos ∧ okJunction s rest = true ∧ wfLines rest = true)) := by
  cases rest with
  | nil =>
    rw [wfLines_single] at h
    simp only [Bool.and_eq_true, decide_eq_true_eq] at h
    exact ⟨h.1, Or.inl ⟨rfl, h.2⟩⟩
  | cons q r2 =>
    rw [wfLines_cons_cons] at h
    simp only [Bool.and_eq_true, decide_eq_true_eq] at h
    exact ⟨h.1, Or.inr ⟨by simp, h.2.1.1, h.2.1.2, h.2.2⟩⟩

theorem wfLines_intro_single {c : Text} (hc : cleanContent c = true) :
    wfLines [(c, .eos)] = true := by
  rw [wfLines_single]
  simp [hc]

theorem wfLines_intro_cons {c : Text} {s : Sep} {q : Line} {r2 : List Line}
    (hc : cleanContent c = true) (hs : s ≠ .eos) (hok : okJunction s (q :: r2) = true)
    (hw : wfLines (q :: r2) = true) : wfLines ((c, s) :: q :: r2) = true := by
  rw [wfLines_cons_cons]
  simp [hc, hs, hok, hw]

theorem rewriteFirstBy_ne_nil (p : Text → Bool) (new : Text) (ls : List Line)
    (h : ls ≠ []) : rewriteFirstBy p new ls ≠ [] := by
  cases ls with
  | nil => exact absurd rfl h
  | cons q rest =>
    cases q with
    | mk c s =>
      unfold rewriteFirstBy
      by_cases hp : p c = true
      · simp only [hp, if_true]
        cases s with
        | crlf => simp
        | lf => simp
        | eos => simp
        | cr =>
          cases rest with
          | nil => simp
          | cons q2 r2 =>
            cases q2 with
            | mk c2 s2 => cases c2 <;> simp
      · simp [hp]

theorem okJunction_rewriteFirstBy (s : Sep) (p : Text → Bool) (new : Text)
    (ls : List Line) (hok : okJunction s ls = true) (hnew : new ≠ []) :
    okJunction s (rewriteFirstBy p new ls) = true := by
  cases s with
  | crlf => exact okJunction_not_cr _ _ (by simp)
  | lf => exact okJunction_not_cr _ _ (by simp)
  | eos => exact okJunction_not_cr _ _ (by simp)
  | cr =>
    cases ls with
    | nil => rfl
    | cons q rest =>
      cases q with
      | mk c s2 =>
        unfold rewriteFirstBy
        by_cases hp : p c = true
        · simp only [hp, if_true]
          cases new with
          | nil => exact absurd rfl hnew
          | cons a as =>
            cases s2 with
            | crlf => rfl
            | lf => rfl
            | eos => rfl
            | cr =>
              cases rest with
              | nil => rfl
              | cons q2 r2 =>
                cases q2 with
                | mk c2 s3 =>
                  cases c2 with
                  | nil => cases s3 <;> rfl
                  | cons b bs => rfl
        · simp only [hp, if_false]
          cases c with
          | nil =>
            cases s2 with
            | lf => simp [okJunction] at hok
            | crlf => rfl
            | cr => rfl
            | eos => rfl
          | cons a as => rfl

theorem rewriteFirstBy_wf (p : Text → Bool) (new : Text) (ls : List Line)
    (hwf : wfLines ls = true) (hclean : cleanContent new = true) (hne : new ≠ []) :
    wfLines (rewriteFirstBy p new ls) = true := by
  induction ls with
  | nil => simp [wfLines] at hwf
  | cons q rest ih =>
    cases q with
    | mk c s =>
      obtain ⟨hc, hcase⟩ := wfLines_cons_elim hwf
      unfold rewriteFirstBy
      by_cases hp : p c = true
      · simp only [hp, if_true]
        rcases hcase with ⟨hrnil, hseos⟩ | ⟨hrne, hsne, hok, hwr⟩
        · subst hrnil
          subst hseos
          exact wfLines_intro_single hclean
        · cases rest with
          | nil => exact absurd rfl hrne
          | cons q2 r2 =>
            cases s with
            | eos => exact absurd rfl hsne
            | crlf =>
              exact wfLines_intro_cons hclean (by simp) (okJunction_not_cr _ _ (by simp)) hwr
            | lf =>
              exact wfLines_intro_cons hclean (by simp) (okJunction_not_cr _ _ (by simp)) hwr
            | cr =>
              cases q2 with
              | mk c2 s2 =>
                obtain ⟨hc2, hcase2⟩ := wfLines_cons_elim hwr
                cases c2 with
                | nil =>
                  rcases hcase2 with ⟨hr2nil, hs2eos⟩ | ⟨hr2ne, hs2ne, hok2, hwr2⟩
                  · subst hr2nil
                    subst hs2eos
                    exact wfLines_intro_single hclean
                  · cases r2 with
                    | nil => exact absurd rfl hr2ne
                    | cons q3 r3 =>
                      exact wfLines_intro_cons hclean hs2ne hok2 hwr2
                | cons b bs =>
                  exact wfLines_intro_cons hclean (by simp)
                    (by
                      show okJunction .cr ((b :: bs, s2) :: r2) = true
                      rfl) hwr
      · simp only [hp, if_false]
        rcases hcase with ⟨hrnil, hseos⟩ | ⟨hrne, hsne, hok, hwr⟩
        · subst hrnil
          subst hseos
          exact wfLines_intro_single hc
        · cases rest with
          | nil => exact absurd rfl hrne
          | cons q2 r2 =>
            have hwr2 := ih hwr
            have hne2 := rewriteFirstBy_ne_nil p new (q2 :: r2) (by simp)
            cases hrw : rewriteFirstBy p new (q2 :: r2) with
            | nil => exact absurd hrw hne2
            | cons q3 r3 =>
              rw [hrw] at hwr2
              refine wfLines_intro_cons hc hsne ?_ hwr2
              have := okJunction_rewriteFirstBy s p new (q2 :: r2) hok hne
              rw [hrw] at this
              exact this

/-! ## Stability of line lookups under rewriting -/

theorem matchKey_isSome_pre {k c : Text} (h : (matchKey k c).isSome = true) :
    isPre k c = true := by
  by_cases hp : isPre k c = true
  · exact hp
  · simp [matchKey, hp] at h

theorem matchKey_none_of_not_pre {k c : Text} (h : isPre k c = false) :
    matchKey k c = none := by
  simp [matchKey, h]

theorem matchKey_nil_line {k : Text} (hk : k ≠ []) : matchKey k [] = none := by
  cases k with
  | nil => exact absurd rfl hk
  | cons a as => rfl

theorem isPre_head_eq {a b : Char} {as bs : Text}
    (h : isPre (a :: as) (b :: bs) = true) : a = b := by
  simp [isPre] at h
  exact h.1

theorem matchKey_disjoint {a b : Char} {as bs : Text} (hab : b ≠ a) (c : Text)
    (hm : (matchKey (a :: as) c).isSome = true) : matchKey (b :: bs) c = none := by
  have hpre := matchKey_isSome_pre hm
  cases c with
  | nil => simp [isPre] at hpre
  | cons x cs =>
    have hax : a = x := isPre_head_eq hpre
    apply matchKey_none_of_not_pre
    subst hax
    simp [isPre]
    intro hba
    exact absurd hba hab

theorem findSome_matchKey_rewriteFirstBy (k : Text) (p : Text → Bool) (new : Text)
    (hk : k ≠ [])
    (hp : ∀ c : Text, p c = true → matchKey k c = none)
    (hnew : matchKey k new = none) :
    ∀ ls : List Line,
      (rewriteFirstBy p new ls).findSome? (fun ln => matchKey k ln.1) =
        ls.findSome? (fun ln => matchKey k ln.1) := by
  intro ls
  induction ls with
  | nil => rfl
  | cons q rest ih =>
    cases q with
    | mk c s =>
      unfold rewriteFirstBy
      by_cases hpc : p c = true
      · simp only [hpc, if_true]
        have hkc := hp c hpc
        cases s with
        | crlf => simp [List.findSome?_cons, hnew, hkc]
        | lf => simp [List.findSome?_cons, hnew, hkc]
        | eos => simp [List.findSome?_cons, hnew, hkc]
        | cr =>
          cases rest with
          | nil => simp [List.findSome?_cons, hnew, hkc]
          | cons q2 r2 =>
            cases q2 with
            | mk c2 s2 =>
              cases c2 with
              | nil =>
                simp [List.findSome?_cons, hnew, hkc, matchKey_nil_line hk]
              | cons b bs =>
                simp [List.findSome?_cons, hnew, hkc]
      · simp only [hpc, if_false]
        cases hmc : matchKey k c with
        | some v => simp [List.findSome?_cons, hmc]
        | none => simp [List.findSome?_cons, hmc, ih]

theorem digitChar_clean (n : Nat) (h : n < 10) :
    digitChar n ≠ '\r' ∧ digitChar n ≠ '\n' := by
  interval_cases n <;> exact ⟨by decide, by decide⟩

theorem natToStrAux_clean (f n : Nat) : cleanContent (natToStrAux f n) = true := by
  induction f generalizing n with
  | zero => rfl
  | succ g ih =>
    unfold natToStrAux
    by_cases hn : n < 10
    · simp only [hn, if_true]
      have := digitChar_clean n hn
      simp [cleanContent, this.1, this.2]
    · simp only [hn, if_false]
      have hm : n % 10 < 10 := Nat.mod_lt _ (by omega)
      have := digitChar_clean (n % 10) hm
      have hih := ih (n := n / 10)
      simp [cleanContent, List.all_append, this.1, this.2] at hih ⊢
      exact hih

theorem natToStr_clean (n : Nat) : cleanContent (natToStr n) = true :=
  natToStrAux_clean _ _

theorem intToStr_clean (i : Int) : cleanContent (intToStr i) = true := by
  unfold intToStr
  by_cases h : i < 0
  · simp only [h, if_true]
    have := natToStr_clean (-i).toNat
    simp [cleanContent] at this ⊢
    exact this
  · simp only [h, if_false]
    exact natToStr_clean _

theorem pad2_clean (n : Int) : cleanContent (pad2 n) = true := by
  unfold pad2
  have := intToStr_clean n
  by_cases h : (intToStr n).length < 2
  · simp only [h, if_true]
    simp [cleanContent] at this ⊢
    exact this
  · simp only [h, if_false]
    exact this

theorem formatIcsDate_clean (d : JsNum) : cleanContent (formatIcsDate d) = true := by
  cases d with
  | none => decide
  | some ms =>
    show cleanContent (intToStr (civilOf ms).1 ++ pad2 (civilOf ms).2.1 ++
      pad2 (civilOf ms).2.2 ++ 'T' :: (pad2 (getHours ms) ++ pad2 (getMinutes ms) ++
        ('0' :: '0' :: []))) = true
    simp [cleanContent, List.all_append, -List.all_eq_true]
    have h1 := intToStr_clean (civilOf ms).1
    have h2 := pad2_clean (civilOf ms).2.1
    have h3 := pad2_clean (civilOf ms).2.2
    have h4 := pad2_clean (getHours ms)
    have h5 := pad2_clean (getMinutes ms)
    simp [cleanContent] at h1 h2 h3 h4 h5
    simp_all

theorem getLineValue_rewrite_stable (b : Text) (p : Text → Bool) (new k : Text)
    (hk : k ≠ []) (hp : ∀ c : Text, p c = true → matchKey k c = none)
    (hnew : matchKey k new = none)
    (hclean : cleanContent new = true) (hne : new ≠ []) :
    getLineValue (joinLines (rewriteFirstBy p new (splitLines b))) k = getLineValue b k := by
  unfold getLineValue
  rw [splitLines_joinLines _ (rewriteFirstBy_wf p new _ (splitLines_wf b) hclean hne)]
  exact findSome_matchKey_rewriteFirstBy k p new hk hp hnew (splitLines b)

theorem getLineValue_dtStage_other (key : Text) (off : JsNum) (wk : Int) (b k : Text)
    (hk : k ≠ [])
    (hp : ∀ c : Text, (matchKey key c).isSome = true → matchKey k c = none)
    (hnew : ∀ z : Text, matchKey k (key ++ ':' :: z) = none)
    (hkeyclean : cleanContent key = true) :
    getLineValue (dtStage key off wk b) k = getLineValue b k := by
  unfold dtStage
  cases hgv : getLineValue b key with
  | none => rfl
  | some v =>
    by_cases hv : v = []
    · simp [hv]
    · simp only [hv, if_false]
      cases hpd : parseIcsDate v with
      | none => rfl
      | some od =>
        apply getLineValue_rewrite_stable b _ _ k hk hp (hnew _)
        · simp [cleanContent, List.all_append] at hkeyclean ⊢
          constructor
          · exact hkeyclean
          · have := formatIcsDate_clean (jsAdd (jsAdd od off) (some wk))
            simp [cleanContent] at this
            exact this
        · intro hcon
          have : key ++ ':' :: formatIcsDate (jsAdd (jsAdd od off) (some wk)) ≠ [] := by
            cases key <;> simp
          exact this hcon

theorem getLineValue_dtStages_uid (off : JsNum) (wk : Int) (b : Text) :
    getLineValue (dtStage dtendKeyT off wk (dtStage dtstartKeyT off wk b)) uidKeyT =
      getLineValue b uidKeyT := by
  rw [getLineValue_dtStage_other dtendKeyT off wk _ uidKeyT (by decide)
      (fun c hm => matchKey_disjoint (by decide) c hm)
      (fun z => matchKey_none_of_not_pre rfl) (by decide)]
  rw [getLineValue_dtStage_other dtstartKeyT off wk b uidKeyT (by decide)
      (fun c hm => matchKey_disjoint (by decide) c hm)
      (fun z => matchKey_none_of_not_pre rfl) (by decide)]

theorem processBlock_now_congr (off : JsNum) (w : Bool) (rc : Int) (n1 n2 : Int)
    (i idx : Nat) (b : Text)
    (h : rc ≤ 1 ∨ jsTruthy (getLineValue b uidKeyT) = true) :
    processBlock off w rc n1 i idx b = processBlock off w rc n2 i idx b := by
  unfold processBlock
  congr 1
  rcases h with hrc | huid
  · unfold uidStage
    have hn : ¬ (1 < rc) := by omega
    simp [hn]
  · unfold uidStage
    by_cases hrc : 1 < rc
    · simp only [hrc, if_true]
      rw [getLineValue_dtStages_uid off (weekMs i) b]
      simp [huid]
    · simp [hrc]

theorem flatMap_congr_mem {α β : Type} {l : List α} {f g : α → List β}
    (h : ∀ a ∈ l, f a = g a) : l.flatMap f = l.flatMap g := by
  induction l with
  | nil => rfl
  | cons x xs ih =>
    simp only [List.flatMap_cons]
    rw [h x (by simp), ih (fun a ha => h a (by simp [ha]))]

theorem finalEvents_now_congr (t : Text) (o : ProcessOptions) (n1 n2 : Int)
    (h : repeatCount o ≤ 1 ∨
      ∀ b ∈ eventBlocksOf (cleanText t), jsTruthy (getLineValue b uidKeyT) = true) :
    finalEvents t o n1 = finalEvents t o n2 := by
  unfold finalEvents
  apply flatMap_congr_mem
  intro i _
  apply List.map_congr_left
  intro bi hbi
  have hmem : bi.2 ∈ eventBlocksOf (cleanText t) := by
    have h2 := List.mem_enum_iff_getElem?.1 hbi
    exact List.mem_iff_getElem?.2 ⟨bi.1, h2⟩
  apply processBlock_now_congr
  rcases h with hrc | hall
  · exact Or.inl hrc
  · exact Or.inr (hall bi.2 hmem)

/-! ## Claim C9 -/

/-- Claim C9 counterexample: the transformation is not deterministic
across invocations.  With weekly expansion and a block lacking a UID,
the synthesized identifier embeds the Date.now() generation timestamp,
so two invocations at different times produce different icsContent. -/
theorem c9_counterexample :
    generateIcsFromText sampleEvent ⟨none, true, some 2⟩ 0 ≠
      generateIcsFromText sampleEvent ⟨none, true, some 2⟩ 1 := by
  decide

/-- Claim C9 (amended): generateIcsFromText is deterministic in the
generation timestamp as long as no identifier has to be synthesized:
when the effective repeat count is at most one, or when every extracted
block carries a truthy UID value, two invocations on the same input and
options yield identical GenerationResults.  When an identifier is
synthesized, the result embeds the current time and determinism fails. -/
theorem c9_deterministic_without_uid_synthesis (t : Text) (o : ProcessOptions)
    (n1 n2 : Int)
    (h : repeatCount o ≤ 1 ∨
      ∀ b ∈ eventBlocksOf (cleanText t), jsTruthy (getLineValue b uidKeyT) = true) :
    generateIcsFromText t o n1 = generateIcsFromText t o n2 := by
  unfold generateIcsFromText
  rw [finalEvents_now_congr t o n1 n2 h]

/-- Claim C9 witness: determinism at the sample input with default
options (single occurrence), at two different generation timestamps. -/
theorem c9_witness :
    generateIcsFromText sampleEvent {} 0 = generateIcsFromText sampleEvent {} 99 :=
  c9_deterministic_without_uid_synthesis sampleEvent {} 0 99 (Or.inl (by decide))

/-! ## The rewritten first key line -/

theorem isPre_append_self : ∀ k x : Text, isPre k (k ++ x) = true := by
  intro k
  induction k with
  | nil => intro x; rfl
  | cons a as ih => intro x; simp [isPre, ih]

theorem isPre_comparable : ∀ (c k1 k2 : Text), isPre k1 c = true → isPre k2 c = true →
    isPre k1 k2 = true ∨ isPre k2 k1 = true := by
  intro c
  induction c with
  | nil =>
    intro k1 k2 h1 h2
    cases k1 with
    | nil => exact Or.inl rfl
    | cons a as => simp [isPre] at h1
  | cons x cs ih =>
    intro k1 k2 h1 h2
    cases k1 with
    | nil => exact Or.inl rfl
    | cons a as =>
      cases k2 with
      | nil => exact Or.inr rfl
      | cons b bs =>
        simp only [isPre, Bool.and_eq_true, decide_eq_true_eq] at h1 h2
        rcases ih as bs h1.2 h2.2 with h | h
        · exact Or.inl (by simp [isPre, h1.1, h2.1.symm, h])
        · exact Or.inr (by simp [isPre, h1.1.symm, h2.1, h])

theorem matchKey_incompat {k1 k2 : Text} (h1 : isPre k1 k2 = false)
    (h2 : isPre k2 k1 = false) (c : Text)
    (hm : (matchKey k1 c).isSome = true) : matchKey k2 c = none := by
  have hpre := matchKey_isSome_pre hm
  by_cases hp2 : isPre k2 c = true
  · rcases isPre_comparable c k1 k2 hpre hp2 with h | h
    · rw [h1] at h; exact absurd h (by simp)
    · rw [h2] at h; exact absurd h (by simp)
  · exact matchKey_none_of_not_pre (by simpa using hp2)

theorem matchKey_none_of_other_pre {p0 k c : Text} (h : isPre p0 c = true)
    (h1 : isPre p0 k = false) (h2 : isPre k p0 = false) : matchKey k c = none := by
  by_cases hp : isPre k c = true
  · rcases isPre_comparable c p0 k h hp with hcmp | hcmp
    · rw [h1] at hcmp; exact absurd hcmp (by simp)
    · rw [h2] at hcmp; exact absurd hcmp (by simp)
  · exact matchKey_none_of_not_pre (by simpa using hp)

theorem afterFirstColon_none (z : Text) (h : ∀ c ∈ z, c ≠ ':') :
    afterFirstColon z = none := by
  induction z with
  | nil => rfl
  | cons a r ih =>
    have ha : a ≠ ':' := h a (by simp)
    unfold afterFirstColon
    simp only [ha, if_false]
    exact ih (fun c hc => h c (by simp [hc]))

theorem digitChar_no_colon (n : Nat) (h : n < 10) : digitChar n ≠ ':' := by
  interval_cases n <;> decide

theorem natToStrAux_no_colon (f n : Nat) : ∀ c ∈ natToStrAux f n, c ≠ ':' := by
  induction f generalizing n with
  | zero => intro c hc; simp [natToStrAux] at hc
  | succ g ih =>
    intro c hc
    unfold natToStrAux at hc
    by_cases hn : n < 10
    · simp [hn] at hc
      subst hc
      exact digitChar_no_colon n hn
    · simp only [hn, if_false, List.mem_append, List.mem_singleton] at hc
      rcases hc with hc | hc
      · exact ih _ c hc
      · subst hc
        exact digitChar_no_colon _ (Nat.mod_lt _ (by omega))

theorem intToStr_no_colon (i : Int) : ∀ c ∈ intToStr i, c ≠ ':' := by
  unfold intToStr
  by_cases h : i < 0
  · simp only [h, if_true]
    intro c hc
    simp at hc
    rcases hc with hc | hc
    · subst hc; decide
    · exact natToStrAux_no_colon _ _ c hc
  · simp only [h, if_false]
    exact natToStrAux_no_colon _ _

theorem pad2_no_colon (n : Int) : ∀ c ∈ pad2 n, c ≠ ':' := by
  unfold pad2
  by_cases h : (intToStr n).length < 2
  · simp only [h, if_true]
    intro c hc
    simp at hc
    rcases hc with hc | hc
    · subst hc; decide
    · exact intToStr_no_colon n c hc
  · simp only [h, if_false]
    exact intToStr_no_colon n

theorem formatIcsDate_no_colon (d : JsNum) : ∀ c ∈ formatIcsDate d, c ≠ ':' := by
  cases d with
  | none => decide
  | some ms =>
    intro c hc
    show c ≠ ':'
    have hc2 : c ∈ intToStr (civilOf ms).1 ++ pad2 (civilOf ms).2.1 ++
        pad2 (civilOf ms).2.2 ++ 'T' :: (pad2 (getHours ms) ++ pad2 (getMinutes ms) ++
          ('0' :: '0' :: [])) := hc
    simp only [List.mem_append, List.mem_cons] at hc2
    rcases hc2 with ((h | h) | h) | h | h
    · exact intToStr_no_colon _ c h
    · exact pad2_no_colon _ c h
    · exact pad2_no_colon _ c h
    · subst h; decide
    · rcases h with (h | h) | h
      · exact pad2_no_colon _ c h
      · exact pad2_no_colon _ c h
      · simp at h
        subst h
        decide

theorem matchKey_self_colon (key z : Text) (hz : afterFirstColon z = none) :
    matchKey key (key ++ ':' :: z) = some z := by
  unfold matchKey
  rw [isPre_append_self]
  simp only [if_true]
  have hdrop : (key ++ ':' :: z).drop key.length = ':' :: z := List.drop_left key _
  rw [hdrop]
  show (match afterFirstColon z with
    | some v => some v
    | none => some z) = some z
  rw [hz]

theorem findSome_rewriteFirstBy_self (k new : Text) (ls : List Line)
    (hex : (ls.findSome? (fun ln => matchKey k ln.1)).isSome = true)
    (hnew : (matchKey k new).isSome = true) :
    (rewriteFirstBy (fun c => (matchKey k c).isSome) new ls).findSome?
        (fun ln => matchKey k ln.1) = matchKey k new := by
  obtain ⟨w, hw⟩ := Option.isSome_iff_exists.1 hnew
  induction ls with
  | nil => simp [List.findSome?] at hex
  | cons q rest ih =>
    cases q with
    | mk c s =>
      unfold rewriteFirstBy
      by_cases hpc : (matchKey k c).isSome = true
      · simp only [hpc, if_true]
        cases s with
        | crlf => simp [List.findSome?_cons, hw]
        | lf => simp [List.findSome?_cons, hw]
        | eos => simp [List.findSome?_cons, hw]
        | cr =>
          cases rest with
          | nil => simp [List.findSome?_cons, hw]
          | cons q2 r2 =>
            cases q2 with
            | mk c2 s2 =>
              cases c2 with
              | nil => simp [List.findSome?_cons, hw]
              | cons b bs => simp [List.findSome?_cons, hw]
      · rw [if_neg hpc]
        have hnone : matchKey k c = none := by
          cases hmc : matchKey k c with
          | none => rfl
          | some v => rw [hmc] at hpc; simp at hpc
        rw [List.findSome?_cons] at hex ⊢
        rw [hnone] at hex ⊢
        exact ih hex

theorem getLineValue_dtStage_self (key : Text) (off : JsNum) (wk : Int) (b v : Text)
    (od : JsNum)
    (hkeyclean : cleanContent key = true)
    (hgv : getLineValue b key = some v) (hv : v ≠ []) (hpd : parseIcsDate v = some od) :
    getLineValue (dtStage key off wk b) key =
      some (formatIcsDate (jsAdd (jsAdd od off) (some wk))) := by
  unfold dtStage
  rw [hgv]
  simp only [hv, if_false]
  rw [hpd]
  have hclean : cleanContent (key ++ ':' :: formatIcsDate (jsAdd (jsAdd od off) (some wk))) = true := by
    have hf := formatIcsDate_clean (jsAdd (jsAdd od off) (some wk))
    simp [cleanContent, List.all_append] at hkeyclean hf ⊢
    exact ⟨hkeyclean, hf⟩
  have hne : key ++ ':' :: formatIcsDate (jsAdd (jsAdd od off) (some wk)) ≠ [] := by
    cases key <;> simp
  unfold getLineValue
  rw [splitLines_joinLines _ (rewriteFirstBy_wf _ _ _ (splitLines_wf b) hclean hne)]
  have hex : ((splitLines b).findSome? (fun ln => matchKey key ln.1)).isSome = true := by
    have : getLineValue b key = some v := hgv
    unfold getLineValue at this
    rw [this]
    rfl
  have hsc := matchKey_self_colon key (formatIcsDate (jsAdd (jsAdd od off) (some wk)))
    (afterFirstColon_none _ (formatIcsDate_no_colon _))
  rw [findSome_rewriteFirstBy_self key _ (splitLines b) hex (by rw [hsc]; rfl)]
  exact hsc

theorem jsTruthy_of_ne_nil {v : Text} (h : v ≠ []) : jsTruthy (some v) = true := by
  cases v with
  | nil => exact absurd rfl h
  | cons a as => rfl

theorem processBlock_simple (off : JsNum) (now : Int) (i idx : Nat) (b : Text) :
    processBlock off false 1 now i idx b =
      dtStage dtendKeyT off (weekMs i) (dtStage dtstartKeyT off (weekMs i) b) := by
  unfold processBlock rruleStage uidStage
  norm_num

theorem getLineValue_dtendStage_dtstart (off : JsNum) (wk : Int) (b : Text) :
    getLineValue (dtStage dtendKeyT off wk b) dtstartKeyT =
      getLineValue b dtstartKeyT := by
  exact getLineValue_dtStage_other dtendKeyT off wk b dtstartKeyT (by decide)
    (fun c hm => matchKey_incompat (by decide) (by decide) c hm)
    (fun z => matchKey_none_of_not_pre rfl) (by decide)

/-! ## Claim C2 -/

/-- Claim C2: offset correctness.  For an input whose extracted blocks
are exactly two, with truthy DTSTART values parsing to valid timestamps
T1 before T2, and an options record carrying a target anchor A without
weekly expansion, the computed offset is A minus T1, and the two
produced blocks carry rewritten DTSTART lines whose values are the
formatted rendering of A and of A plus the duration T2 minus T1. -/
theorem c2_offset_correctness (input b1 b2 v1 v2 : Text) (t1 t2 A now : Int)
    (wc : Option Int)
    (hb : eventBlocksOf (cleanText input) = [b1, b2])
    (hv1 : getLineValue b1 dtstartKeyT = some v1) (hn1 : v1 ≠ [])
    (hp1 : parseIcsDate v1 = some (some t1))
    (hv2 : getLineValue b2 dtstartKeyT = some v2) (hn2 : v2 ≠ [])
    (hp2 : parseIcsDate v2 = some (some t2))
    (hlt : t1 < t2) :
    timeOffset (eventBlocksOf (cleanText input)) (some A) = some (A - t1) ∧
    ∃ pb1 pb2 : Text,
      finalEvents input ⟨some A, false, wc⟩ now = [pb1, pb2] ∧
      getLineValue pb1 dtstartKeyT = some (formatIcsDate (some A)) ∧
      getLineValue pb2 dtstartKeyT = some (formatIcsDate (some (A + (t2 - t1)))) := by
  have htr1 := jsTruthy_of_ne_nil hn1
  have htr2 := jsTruthy_of_ne_nil hn2
  have he : earliestStart [b1, b2] = some (some t1) := by
    unfold earliestStart
    simp only [List.foldl_cons, List.foldl_nil]
    simp only [hv1, hv2, htr1, htr2, if_true, Option.getD_some, hp1, hp2]
    have hltb : jsLtB (some t2) (some t1) = false := by
      simp only [jsLtB, decide_eq_false_iff_not]
      omega
    simp [hltb]
  have hoff : timeOffset (eventBlocksOf (cleanText input)) (some A) = some (A - t1) := by
    unfold timeOffset
    rw [hb, he]
    rfl
  refine ⟨hoff, ?_⟩
  have hoff2 : timeOffset [b1, b2] (some A) = some (A - t1) := by
    rw [← hb]
    exact hoff
  have hrc : repeatCount ⟨some A, false, wc⟩ = 1 := rfl
  have hfe : finalEvents input ⟨some A, false, wc⟩ now =
      [processBlock (some (A - t1)) false 1 now 0 0 b1,
       processBlock (some (A - t1)) false 1 now 0 1 b2] := by
    unfold finalEvents
    rw [hrc, hb]
    show ([0].flatMap fun i =>
        List.map (fun bi => processBlock (timeOffset [b1, b2] (some A)) false 1 now i bi.1 bi.2)
          ([b1, b2].enum)) = _
    rw [hoff2]
    rfl
  refine ⟨_, _, hfe, ?_, ?_⟩
  · rw [processBlock_simple, getLineValue_dtendStage_dtstart]
    rw [getLineValue_dtStage_self dtstartKeyT (some (A - t1)) (weekMs 0) b1 v1 (some t1)
      (by decide) hv1 hn1 hp1]
    have harith : t1 + (A - t1) + weekMs 0 = A := by
      unfold weekMs
      push_cast
      ring
    simp only [jsAdd]
    rw [harith]
  · rw [processBlock_simple, getLineValue_dtendStage_dtstart]
    rw [getLineValue_dtStage_self dtstartKeyT (some (A - t1)) (weekMs 0) b2 v2 (some t2)
      (by decide) hv2 hn2 hp2]
    have harith : t2 + (A - t1) + weekMs 0 = A + (t2 - t1) := by
      unfold weekMs
      push_cast
      ring
    simp only [jsAdd]
    rw [harith]

/-- Claim C2 witness: the offset theorem applied to a concrete two-block
input with anchor 2024-06-01 08:00 local. -/
theorem c2_witness :
    timeOffset (eventBlocksOf (cleanText sampleTwoEvents)) (some 1717228800000) =
        some (1717228800000 - 1704099600000) ∧
      ∃ pb1 pb2 : Text,
        finalEvents sampleTwoEvents ⟨some 1717228800000, false, none⟩ 0 = [pb1, pb2] ∧
        getLineValue pb1 dtstartKeyT = some (formatIcsDate (some 1717228800000)) ∧
        getLineValue pb2 dtstartKeyT =
          some (formatIcsDate (some (1717228800000 + (1704186000000 - 1704099600000)))) :=
  c2_offset_correctness sampleTwoEvents
    (("BEGIN:VEVENT\r\nDTSTART:20240101T090000\r\nEND:VEVENT").data)
    (("BEGIN:VEVENT\r\nDTSTART:20240102T090000\r\nEND:VEVENT").data)
    (("20240101T090000").data) (("20240102T090000").data)
    1704099600000 1704186000000 1717228800000 0 none
    (by decide) (by decide) (by decide) (by decide) (by decide) (by decide) (by decide)
    (by decide)

/-! ## Field ranges of the civil date conversion -/

theorem civilNf_mono_step (a : Int) (h0 : 0 ≤ a) (h1 : a + 1 ≤ 146096) :
    civilNf a ≤ civilNf (a + 1) := by
  unfold civilNf
  omega

set_option maxHeartbeats 2000000 in
theorem civilF1 : ∀ Y : Nat, Y < 400 → 365 * (Y : Int) ≤ civilNf (civilG (Y : Int)) := by
  decide

set_option maxHeartbeats 2000000 in
theorem civilF2 : ∀ Y : Nat, Y < 399 →
    civilNf (civilG ((Y : Int) + 1) - 1) ≤ 365 * ((Y : Int) + 1) - 1 := by
  decide

theorem civilNf_mono_n : ∀ n : Nat, ∀ a : Int, 0 ≤ a → a + (n : Int) ≤ 146096 →
    civilNf a ≤ civilNf (a + (n : Int)) := by
  intro n
  induction n with
  | zero => intro a _ _; simp
  | succ k ih =>
    intro a h0 h1
    push_cast at h1
    have hk := ih a h0 (by omega)
    have hstep := civilNf_mono_step (a + (k : Int)) (by omega) (by omega)
    have hrw : a + ((k : Int) + 1) = a + (k : Int) + 1 := by ring
    push_cast
    rw [hrw]
    omega

theorem civilNf_mono_le (a b : Int) (h0 : 0 ≤ a) (hab : a ≤ b) (hb : b ≤ 146096) :
    civilNf a ≤ civilNf b := by
  have hc : b = a + (((b - a).toNat : Nat) : Int) := by omega
  rw [hc]
  exact civilNf_mono_n (b - a).toNat a h0 (by omega)

theorem civil_yoe_correct (doe : Int) (h0 : 0 ≤ doe) (h1 : doe ≤ 146096) :
    civilG (civilNf doe / 365) ≤ doe ∧ doe ≤ civilG (civilNf doe / 365) + 365 ∧
    0 ≤ civilNf doe / 365 ∧ civilNf doe / 365 ≤ 399 := by
  have hNf0 : 0 ≤ civilNf doe := by
    have h := civilNf_mono_le 0 doe (le_refl 0) h0 h1
    have hz : civilNf 0 = 0 := by decide
    omega
  have hNfmax : civilNf doe ≤ 145999 := by
    have h := civilNf_mono_le doe 146096 h0 h1 (le_refl _)
    have hz : civilNf 146096 = 145999 := by decide
    omega
  have hY0 : 0 ≤ civilNf doe / 365 := by omega
  have hY399 : civilNf doe / 365 ≤ 399 := by omega
  refine ⟨?_, ?_, hY0, hY399⟩
  · by_contra hcon
    push_neg at hcon
    have hY1 : 1 ≤ civilNf doe / 365 := by
      by_contra h
      have hz : civilNf doe / 365 = 0 := by omega
      rw [hz] at hcon
      have : civilG 0 = 0 := by decide
      omega
    have hF2 := civilF2 (civilNf doe / 365 - 1).toNat (by omega)
    have hcast : (((civilNf doe / 365 - 1).toNat : Nat) : Int) + 1 = civilNf doe / 365 := by
      omega
    rw [hcast] at hF2
    have hGub : civilG (civilNf doe / 365) ≤ 145731 := by
      unfold civilG
      omega
    have hmono := civilNf_mono_le doe (civilG (civilNf doe / 365) - 1) h0 (by omega) (by omega)
    omega
  · by_cases hY399e : civilNf doe / 365 = 399
    · rw [hY399e]
      have : civilG 399 = 145731 := by decide
      omega
    · by_contra hcon
      push_neg at hcon
      have hstep : civilG (civilNf doe / 365 + 1) ≤ civilG (civilNf doe / 365) + 366 := by
        unfold civilG
        omega
      have hge : civilG (civilNf doe / 365 + 1) ≤ doe := by omega
      have hF1 := civilF1 (civilNf doe / 365 + 1).toNat (by omega)
      have hcast : (((civilNf doe / 365 + 1).toNat : Nat) : Int) = civilNf doe / 365 + 1 := by
        omega
      rw [hcast] at hF1
      have hGpos : 0 ≤ civilG (civilNf doe / 365 + 1) := by
        unfold civilG
        omega
      have hmono := civilNf_mono_le (civilG (civilNf doe / 365 + 1)) doe hGpos hge h1
      omega

theorem civilFromDays_ranges (z : Int) :
    1 ≤ (civilFromDays z).2.1 ∧ (civilFromDays z).2.1 ≤ 12 ∧
    1 ≤ (civilFromDays z).2.2 ∧ (civilFromDays z).2.2 ≤ 31 := by
  unfold civilFromDays
  dsimp only
  have hdoeb : 0 ≤ z + 719468 - (z + 719468) / 146097 * 146097 ∧
      z + 719468 - (z + 719468) / 146097 * 146097 ≤ 146096 := by omega
  have hyc := civil_yoe_correct _ hdoeb.1 hdoeb.2
  split_ifs <;> omega

/-! ## Shape of formatted timestamps -/

theorem natToStr_unfold (n : Nat) :
    natToStr n = if n < 10 then [digitChar n]
      else natToStr (n / 10) ++ [digitChar (n % 10)] := by
  show natToStrAux (n + 1) n = _
  unfold natToStrAux
  by_cases h : n < 10
  · simp [h]
  · simp only [h, if_false]
    have h1 : n / 10 < 10 ^ n := by
      have := Nat.lt_pow_self (by omega : 1 < 10) n
      omega
    rw [natToStr_eq n (n / 10) h1 (by omega)]

theorem natToStr_length_pow : ∀ k n : Nat, 10 ^ k ≤ n → n < 10 ^ (k + 1) →
    (natToStr n).length = k + 1 := by
  intro k
  induction k with
  | zero =>
    intro n h1 h2
    rw [natToStr_unfold]
    have : n < 10 := by simpa using h2
    simp [this]
  | succ j ih =>
    intro n h1 h2
    have hp1 : (10 : Nat) ^ (j + 1) = 10 ^ j * 10 := pow_succ 10 j
    have hp2 : (10 : Nat) ^ (j + 2) = 10 ^ (j + 1) * 10 := pow_succ 10 (j + 1)
    have hp3 : 1 ≤ (10 : Nat) ^ j := Nat.one_le_pow j 10 (by omega)
    have hn10 : ¬ n < 10 := by omega
    rw [natToStr_unfold]
    simp only [hn10, if_false, List.length_append, List.length_cons, List.length_nil]
    have hih := ih (n / 10) (by omega) (by omega)
    omega

theorem digitChar_isDigit (n : Nat) (h : n < 10) : (digitChar n).isDigit = true := by
  interval_cases n <;> decide

theorem natToStrAux_digits (f n : Nat) : (natToStrAux f n).all Char.isDigit = true := by
  induction f generalizing n with
  | zero => rfl
  | succ g ih =>
    unfold natToStrAux
    by_cases h : n < 10
    · simp [h, digitChar_isDigit n h]
    · simp only [h, if_false, List.all_append]
      have := digitChar_isDigit (n % 10) (Nat.mod_lt _ (by omega))
      simp [ih, this]

theorem pad2_two (n : Int) (h0 : 0 ≤ n) (h99 : n < 100) :
    (pad2 n).length = 2 ∧ (pad2 n).all Char.isDigit = true := by
  have hneg : ¬ n < 0 := by omega
  have hstr : intToStr n = natToStr n.toNat := by
    unfold intToStr
    simp [hneg]
  have hdig : (natToStr n.toNat).all Char.isDigit = true := natToStrAux_digits _ _
  by_cases h : n.toNat < 10
  · have hlen : (natToStr n.toNat).length = 1 := by
      rw [natToStr_unfold]
      simp [h]
    simp [pad2, hstr, hlen, hdig]
  · have hlen : (natToStr n.toNat).length = 2 :=
      natToStr_length_pow 1 n.toNat (by omega) (by omega)
    simp [pad2, hstr, hlen, hdig]

theorem intToStr_year4 (y : Int) (h1 : 1000 ≤ y) (h2 : y ≤ 9999) :
    (intToStr y).length = 4 ∧ (intToStr y).all Char.isDigit = true := by
  have hneg : ¬ y < 0 := by omega
  have hstr : intToStr y = natToStr y.toNat := by
    unfold intToStr
    simp [hneg]
  rw [hstr]
  refine ⟨natToStr_length_pow 3 y.toNat (by omega) (by omega), natToStrAux_digits _ _⟩

theorem icsShape_format (ms : Int) (hy1 : 1000 ≤ (civilOf ms).1)
    (hy2 : (civilOf ms).1 ≤ 9999) : icsShape (formatIcsDate (some ms)) := by
  have hco : civilOf ms = civilFromDays (msDays ms) := rfl
  have hranges := civilFromDays_ranges (msDays ms)
  rw [← hco] at hranges
  have hy := intToStr_year4 (civilOf ms).1 hy1 hy2
  have hmo := pad2_two (civilOf ms).2.1 (by have := hranges.1; omega) (by have := hranges.2.1; omega)
  have hdy := pad2_two (civilOf ms).2.2 (by have := hranges.2.2.1; omega) (by have := hranges.2.2.2; omega)
  have hh := pad2_two (getHours ms) (by unfold getHours; omega) (by unfold getHours; omega)
  have hmi := pad2_two (getMinutes ms) (by unfold getMinutes; omega) (by unfold getMinutes; omega)
  refine ⟨intToStr (civilOf ms).1, pad2 (civilOf ms).2.1, pad2 (civilOf ms).2.2,
    pad2 (getHours ms), pad2 (getMinutes ms), rfl, hy.1, hmo.1, hdy.1, hh.1, hmi.1, ?_⟩
  simp [List.all_append, hy.2, hmo.2, hdy.2, hh.2, hmi.2]

theorem findSome?_any {α β : Type} (f : α → Option β) :
    ∀ ls : List α, (ls.findSome? f).isSome = true →
      ls.any (fun x => (f x).isSome) = true := by
  intro ls
  induction ls with
  | nil => intro h; simp [List.findSome?] at h
  | cons x rest ih =>
    intro h
    rw [List.findSome?_cons] at h
    cases hf : f x with
    | some v => simp [hf]
    | none =>
      rw [hf] at h
      simp [hf, ih h]

theorem rewriteFirstBy_mem (p : Text → Bool) (new : Text) :
    ∀ ls : List Line, ls.any (fun ln => p ln.1) = true →
      new ∈ (rewriteFirstBy p new ls).map Prod.fst := by
  intro ls
  induction ls with
  | nil => intro h; simp at h
  | cons q rest ih =>
    intro h
    cases q with
    | mk c s =>
      unfold rewriteFirstBy
      by_cases hpc : p c = true
      · rw [if_pos hpc]
        cases s with
        | crlf => simp only [List.map_cons, List.mem_cons]; exact Or.inl trivial
        | lf => simp only [List.map_cons, List.mem_cons]; exact Or.inl trivial
        | eos => simp only [List.map_cons, List.mem_cons]; exact Or.inl trivial
        | cr =>
          cases rest with
          | nil => simp only [List.map_cons, List.mem_cons]; exact Or.inl trivial
          | cons q2 r2 =>
            cases q2 with
            | mk c2 s2 =>
              cases c2 with
              | nil => simp only [List.map_cons, List.mem_cons]; exact Or.inl trivial
              | cons b bs => simp only [List.map_cons, List.mem_cons]; exact Or.inl trivial
      · rw [if_neg hpc]
        have h2 : rest.any (fun ln => p ln.1) = true := by
          simp only [List.any_cons, Bool.or_eq_true] at h
          rcases h with h | h
          · exact absurd h hpc
          · exact h
        simp only [List.map_cons, List.mem_cons]
        exact Or.inr (ih h2)

/-! ## Claim C7 -/

/-- Claim C7 counterexample: a parseable start field with a three-digit
year (here 999, from the digits 0999) is rewritten without padding, so
the value has fourteen characters instead of the claimed
YYYYMMDDTHHMM00 shape. -/
theorem c7_counterexample :
    getLineValue (dtStage dtstartKeyT (some 0) 0
        (("BEGIN:VEVENT\r\nDTSTART:09990101T000000\r\nEND:VEVENT").data)) dtstartKeyT =
      some (("9990101T000000").data) ∧
    ¬ icsShape (("9990101T000000").data) := by
  constructor
  · decide
  · rintro ⟨y, mo, dy, h, mi, heq, h4, h2a, h2b, h2c, h2d, _⟩
    have hl := congrArg List.length heq
    simp [List.length_append] at hl
    omega

/-- Claim C7 (amended): whenever a start or end field is present with a
truthy value that parses to a valid timestamp, and the shifted timestamp
falls in a year between 1000 and 9999, the time-adjustment step rewrites
the whole first matching line to the bare form KEY:VALUE with no
parameters, where VALUE has the exact shape YYYYMMDDTHHMM00 (four-digit
year, two-digit zero-padded month, day, hour, minute, literal zeroed
seconds).  Outside that year range the year is rendered unpadded and the
shape claim fails. -/
theorem c7_rewritten_line_shape (key b v : Text) (od ms : Int) (off : JsNum) (wk : Int)
    (hkey : key = dtstartKeyT ∨ key = dtendKeyT)
    (hgv : getLineValue b key = some v) (hn : v ≠ [])
    (hpd : parseIcsDate v = some (some od))
    (hms : jsAdd (jsAdd (some od) off) (some wk) = some ms)
    (hy1 : 1000 ≤ (civilOf ms).1) (hy2 : (civilOf ms).1 ≤ 9999) :
    getLineValue (dtStage key off wk b) key = some (formatIcsDate (some ms)) ∧
    icsShape (formatIcsDate (some ms)) ∧
    (key ++ ':' :: formatIcsDate (some ms)) ∈
      (splitLines (dtStage key off wk b)).map Prod.fst := by
  have hkc : cleanContent key = true := by
    rcases hkey with h | h <;> (subst h; decide)
  have h1 := getLineValue_dtStage_self key off wk b v (some od) hkc hgv hn hpd
  rw [hms] at h1
  refine ⟨h1, icsShape_format ms hy1 hy2, ?_⟩
  unfold dtStage
  rw [hgv]
  simp only [hn, if_false]
  rw [hpd]
  simp only [hms]
  have hclean : cleanContent (key ++ ':' :: formatIcsDate (some ms)) = true := by
    have hf := formatIcsDate_clean (some ms)
    simp [cleanContent, List.all_append] at hkc hf ⊢
    exact ⟨hkc, hf⟩
  have hne : key ++ ':' :: formatIcsDate (some ms) ≠ [] := by
    cases key <;> simp
  rw [splitLines_joinLines _ (rewriteFirstBy_wf _ _ _ (splitLines_wf b) hclean hne)]
  apply rewriteFirstBy_mem
  apply findSome?_any
  unfold getLineValue at hgv
  rw [hgv]
  rfl

/-- Claim C7 witness: the amended theorem at a concrete block whose
start parses to 2024-01-01 09:00 with zero offset. -/
theorem c7_witness :
    getLineValue (dtStage dtstartKeyT (some 0) 0
        (("BEGIN:VEVENT\r\nDTSTART:20240101T090000\r\nEND:VEVENT").data)) dtstartKeyT =
      some (formatIcsDate (some 1704099600000)) ∧
    icsShape (formatIcsDate (some 1704099600000)) ∧
    (dtstartKeyT ++ ':' :: formatIcsDate (some 1704099600000)) ∈
      (splitLines (dtStage dtstartKeyT (some 0) 0
        (("BEGIN:VEVENT\r\nDTSTART:20240101T090000\r\nEND:VEVENT").data))).map Prod.fst :=
  c7_rewritten_line_shape dtstartKeyT
    (("BEGIN:VEVENT\r\nDTSTART:20240101T090000\r\nEND:VEVENT").data)
    (("20240101T090000").data) 1704099600000 1704099600000 (some 0) 0
    (Or.inl rfl) (by decide) (by decide) (by decide) (by decide) (by decide) (by decide)

/-! ## Lone carriage returns through the pipeline -/

theorem noLoneCr_cons_not {c : Char} (r : Text) (h : ¬ c = '\r') :
    noLoneCr (c :: r) = noLoneCr r := by
  conv_lhs => unfold noLoneCr
  rw [if_neg h]

theorem noLoneCr_cr_nil : noLoneCr ('\r' :: []) = false := by
  conv_lhs => unfold noLoneCr
  rw [if_pos rfl]

theorem noLoneCr_cr_cons (d : Char) (r : Text) :
    noLoneCr ('\r' :: d :: r) = (decide (d = '\n') && noLoneCr (d :: r)) := by
  conv_lhs => unfold noLoneCr
  rw [if_pos rfl]

theorem noLoneCr_tail {c : Char} {r : Text} (h : noLoneCr (c :: r) = true) :
    noLoneCr r = true := by
  by_cases hc : c = '\r'
  · subst hc
    cases r with
    | nil => rfl
    | cons d r2 =>
      rw [noLoneCr_cr_cons, Bool.and_eq_true] at h
      exact h.2
  · rwa [noLoneCr_cons_not r hc] at h

theorem noLoneCr_append {a b : Text} (ha : noLoneCr a = true) (hb : noLoneCr b = true) :
    noLoneCr (a ++ b) = true := by
  induction a with
  | nil => simpa using hb
  | cons c a2 ih =>
    rw [List.cons_append]
    by_cases hc : c = '\r'
    · subst hc
      cases a2 with
      | nil => rw [noLoneCr_cr_nil] at ha; exact absurd ha (by simp)
      | cons d a3 =>
        rw [noLoneCr_cr_cons] at ha
        rw [List.cons_append, noLoneCr_cr_cons]
        rw [Bool.and_eq_true] at ha ⊢
        have h3 := ih ha.2
        rw [List.cons_append] at h3
        exact ⟨ha.1, h3⟩
    · rw [noLoneCr_cons_not _ hc] at ha
      rw [noLoneCr_cons_not _ hc]
      exact ih ha

theorem noLoneCr_append_right {a b : Text} (h : noLoneCr (a ++ b) = true) :
    noLoneCr b = true := by
  induction a with
  | nil => simpa using h
  | cons c a2 ih =>
    rw [List.cons_append] at h
    exact ih (noLoneCr_tail h)

theorem noLoneCr_crlf_cons (x : Text) : noLoneCr ('\r' :: '\n' :: x) = noLoneCr x := by
  rw [noLoneCr_cr_cons, noLoneCr_cons_not x (by decide)]
  simp

theorem noLoneCr_prefix {c : Char} (a rest : Text) (hc : ¬ c = '\n')
    (h : noLoneCr (a ++ c :: rest) = true) : noLoneCr a = true := by
  induction a with
  | nil => rfl
  | cons x a2 ih =>
    rw [List.cons_append] at h
    by_cases hx : x = '\r'
    · subst hx
      cases a2 with
      | nil =>
        rw [List.nil_append, noLoneCr_cr_cons, Bool.and_eq_true, decide_eq_true_eq] at h
        exact absurd h.1 hc
      | cons d a3 =>
        rw [List.cons_append, noLoneCr_cr_cons, Bool.and_eq_true] at h
        have h4 := h.2
        rw [← List.cons_append] at h4
        have h5 := ih h4
        rw [noLoneCr_cr_cons, Bool.and_eq_true]
        exact ⟨h.1, h5⟩
    · rw [noLoneCr_cons_not _ hx] at h
      rw [noLoneCr_cons_not _ hx]
      exact ih h

theorem noLoneCr_prefix_of_last (a b : Text) (h : noLoneCr (a ++ b) = true)
    (hl : a.getLast? ≠ some '\r') : noLoneCr a = true := by
  induction a with
  | nil => rfl
  | cons x a2 ih =>
    rw [List.cons_append] at h
    by_cases hx : x = '\r'
    · subst hx
      cases a2 with
      | nil => simp at hl
      | cons d a3 =>
        rw [List.getLast?_cons_cons] at hl
        rw [List.cons_append, noLoneCr_cr_cons, Bool.and_eq_true] at h
        have h4 := h.2
        rw [← List.cons_append] at h4
        have h5 := ih h4 hl
        rw [noLoneCr_cr_cons, Bool.and_eq_true]
        exact ⟨h.1, h5⟩
    · cases a2 with
      | nil => rw [noLoneCr_cons_not _ hx]; rfl
      | cons d a3 =>
        rw [List.getLast?_cons_cons] at hl
        rw [noLoneCr_cons_not _ hx] at h
        rw [noLoneCr_cons_not _ hx]
        exact ih h hl

theorem noLoneCr_of_clean {t : Text} (h : cleanContent t = true) : noLoneCr t = true := by
  induction t with
  | nil => rfl
  | cons c r ih =>
    rw [cleanContent, List.all_cons, Bool.and_eq_true] at h
    have hc : ¬ c = '\r' := by
      have h1 := h.1
      simp at h1
      exact h1.1
    rw [noLoneCr_cons_not _ hc]
    exact ih h.2

theorem cleanContent_tail {c : Char} {r : Text} (h : cleanContent (c :: r) = true) :
    cleanContent r = true := by
  rw [cleanContent, List.all_cons, Bool.and_eq_true] at h
  exact h.2

theorem cleanContent_drop (c : Text) (n : Nat) (h : cleanContent c = true) :
    cleanContent (c.drop n) = true := by
  rw [cleanContent, List.all_eq_true] at h ⊢
  intro x hx
  exact h x (List.drop_subset n c hx)

theorem crlfToLf_crlf (r : Text) : crlfToLf ('\r' :: '\n' :: r) = '\n' :: crlfToLf r := rfl

theorem crlfToLf_cons (c : Char) (r : Text)
    (h : ∀ r2 : Text, c = '\r' → r = '\n' :: r2 → False) :
    crlfToLf (c :: r) = c :: crlfToLf r := by
  cases r with
  | nil =>
    by_cases hc : c = '\r'
    · subst hc; rfl
    · conv_lhs => unfold crlfToLf
      simp [hc]
  | cons a r2 =>
    by_cases hc : c = '\r'
    · subst hc
      by_cases ha : a = '\n'
      · subst ha
        exact (h r2 rfl rfl).elim
      · conv_lhs => unfold crlfToLf
        simp [ha]
    · conv_lhs => unfold crlfToLf
      simp [hc]

theorem lfToCrlf_lf (r : Text) : lfToCrlf ('\n' :: r) = '\r' :: '\n' :: lfToCrlf r := rfl

theorem lfToCrlf_cons (c : Char) (r : Text) (h : ¬ c = '\n') :
    lfToCrlf (c :: r) = c :: lfToCrlf r := by
  conv_lhs => unfold lfToCrlf
  simp [h]

theorem crlfToLf_no_cr (t : Text) (h : noLoneCr t = true) :
    ∀ c ∈ crlfToLf t, ¬ c = '\r' := by
  induction t using crlfToLf.induct with
  | case1 => intro c hc; simp [crlfToLf] at hc
  | case2 r ih =>
    rw [crlfToLf_crlf]
    rw [noLoneCr_crlf_cons] at h
    intro c hc
    rcases List.mem_cons.1 hc with h1 | h1
    · subst h1; decide
    · exact ih h c h1
  | case3 c r hcon ih =>
    rw [crlfToLf_cons c r hcon]
    have hc : ¬ c = '\r' := by
      intro hcr
      subst hcr
      cases r with
      | nil => rw [noLoneCr_cr_nil] at h; exact absurd h (by simp)
      | cons d r2 =>
        rw [noLoneCr_cr_cons, Bool.and_eq_true, decide_eq_true_eq] at h
        exact hcon r2 rfl (by rw [h.1])
    have hr : noLoneCr r = true := by
      rwa [noLoneCr_cons_not _ hc] at h
    intro x hx
    rcases List.mem_cons.1 hx with h1 | h1
    · subst h1; exact hc
    · exact ih hr x h1

theorem lfToCrlf_noLoneCr (t : Text) (h : ∀ c ∈ t, ¬ c = '\r') :
    noLoneCr (lfToCrlf t) = true := by
  induction t using lfToCrlf.induct with
  | case1 => rfl
  | case2 r ih =>
    rw [lfToCrlf_lf, noLoneCr_crlf_cons]
    exact ih (fun c hc => h c (by simp [hc]))
  | case3 c r hcon ih =>
    rw [lfToCrlf_cons c r hcon, noLoneCr_cons_not _ (h c (by simp))]
    exact ih (fun x hx => h x (by simp [hx]))

theorem dropWhile_head_not (p : Char → Bool) : ∀ (l : Text) {c : Char},
    (l.dropWhile p).head? = some c → p c = false := by
  intro l
  induction l with
  | nil => intro c h; simp [List.dropWhile] at h
  | cons x r ih =>
    intro c h
    rw [List.dropWhile_cons] at h
    by_cases hp : p x = true
    · rw [if_pos hp] at h
      exact ih h
    · rw [if_neg hp] at h
      simp at h
      subst h
      simpa using hp

theorem noLoneCr_rtrim (l : Text) (h : noLoneCr l = true) :
    noLoneCr (l.reverse.dropWhile isJsWs).reverse = true := by
  have e1 : l.reverse = l.reverse.takeWhile isJsWs ++ l.reverse.dropWhile isJsWs :=
    (List.takeWhile_append_dropWhile isJsWs l.reverse).symm
  have e2 : l = (l.reverse.dropWhile isJsWs).reverse ++
      (l.reverse.takeWhile isJsWs).reverse := by
    have e3 := congrArg List.reverse e1
    rw [List.reverse_reverse, List.reverse_append] at e3
    exact e3
  refine noLoneCr_prefix_of_last ((l.reverse.dropWhile isJsWs).reverse)
    ((l.reverse.takeWhile isJsWs).reverse) ?_ ?_
  · rw [← e2]; exact h
  · rw [List.getLast?_reverse]
    cases hh : (l.reverse.dropWhile isJsWs).head? with
    | none => simp
    | some c =>
      have hws := dropWhile_head_not isJsWs l.reverse hh
      intro heq
      injection heq with heq2
      subst heq2
      simp [isJsWs] at hws

theorem jsTrim_noLoneCr (t : Text) (h : noLoneCr t = true) :
    noLoneCr (jsTrim t) = true := by
  have h1 : noLoneCr (t.dropWhile isJsWs) = true := by
    refine noLoneCr_append_right (a := t.takeWhile isJsWs) ?_
    rw [List.takeWhile_append_dropWhile]
    exact h
  exact noLoneCr_rtrim _ h1

theorem cleanText_noLoneCr (t : Text) (h : noLoneCr t = true) :
    noLoneCr (cleanText t) = true := by
  unfold cleanText
  exact lfToCrlf_noLoneCr _ (crlfToLf_no_cr _ (jsTrim_noLoneCr t h))

theorem splitLines_okCr (t : Text) : noLoneCr t = true → okCrLines (splitLines t) = true := by
  induction t using splitLines.induct with
  | case1 => intro h; rfl
  | case2 r ih =>
    intro h
    rw [noLoneCr_crlf_cons] at h
    rw [splitLines_crlf, okCrLines, List.all_cons, Bool.and_eq_true]
    exact ⟨by decide, ih h⟩
  | case3 r hcon ih =>
    intro h
    exfalso
    cases r with
    | nil => rw [noLoneCr_cr_nil] at h; exact absurd h (by simp)
    | cons d r2 =>
      rw [noLoneCr_cr_cons, Bool.and_eq_true, decide_eq_true_eq] at h
      exact hcon r2 (by rw [h.1])
  | case4 r ih =>
    intro h
    rw [noLoneCr_cons_not _ (by decide)] at h
    rw [splitLines_lf, okCrLines, List.all_cons, Bool.and_eq_true]
    exact ⟨by decide, ih h⟩
  | case5 c r hcon h2 h3 l s rest heq ih =>
    intro h
    rw [noLoneCr_cons_not _ h2] at h
    have hr := ih h
    rw [heq] at hr
    rw [splitLines_cons_notterm c r h2 h3, heq]
    rw [okCrLines, List.all_cons, Bool.and_eq_true] at hr ⊢
    simp only [Bool.and_eq_true] at hr ⊢
    refine ⟨⟨?_, hr.1.2⟩, hr.2⟩
    rw [cleanContent, List.all_cons, Bool.and_eq_true]
    refine ⟨?_, hr.1.1⟩
    rw [Bool.and_eq_true, decide_eq_true_eq, decide_eq_true_eq]
    exact ⟨h2, h3⟩
  | case6 c r hcon h2 h3 heq ih =>
    exact absurd heq (splitLines_ne_nil r)

theorem wfLines_clean (ls : List Line) (h : wfLines ls = true) :
    ∀ ln ∈ ls, cleanContent ln.1 = true := by
  induction ls with
  | nil => intro ln hln; simp at hln
  | cons q rest ih =>
    intro ln hln
    cases q with
    | mk c s =>
      obtain ⟨hc, hrest⟩ := wfLines_cons_elim h
      rcases List.mem_cons.1 hln with h1 | h1
      · subst h1; exact hc
      · rcases hrest with ⟨hnil, _⟩ | ⟨_, _, _, hwf⟩
        · subst hnil; simp at h1
        · exact ih hwf ln h1

theorem joinLines_noLoneCr (ls : List Line) (h : okCrLines ls = true) :
    noLoneCr (joinLines ls) = true := by
  induction ls with
  | nil => rfl
  | cons q rest ih =>
    cases q with
    | mk c s =>
      rw [okCrLines, List.all_cons, Bool.and_eq_true] at h
      obtain ⟨h1, h2⟩ := h
      rw [Bool.and_eq_true, decide_eq_true_eq] at h1
      have hsep : noLoneCr (sepText s) = true := by
        cases s with
        | crlf => rfl
        | lf => rfl
        | eos => rfl
        | cr => exact absurd rfl h1.2
      show noLoneCr (c ++ sepText s ++ joinLines rest) = true
      exact noLoneCr_append (noLoneCr_append (noLoneCr_of_clean h1.1) hsep) (ih h2)

theorem rewriteFirstBy_okCr (p : Text → Bool) (new : Text)
    (hnew : cleanContent new = true) :
    ∀ ls : List Line, okCrLines ls = true → okCrLines (rewriteFirstBy p new ls) = true := by
  intro ls
  induction ls with
  | nil => intro h; exact h
  | cons q rest ih =>
    intro h
    cases q with
    | mk c s =>
      rw [okCrLines, List.all_cons, Bool.and_eq_true] at h
      obtain ⟨h1, h2⟩ := h
      rw [Bool.and_eq_true, decide_eq_true_eq] at h1
      unfold rewriteFirstBy
      by_cases hpc : p c = true
      · rw [if_pos hpc]
        cases s with
        | crlf =>
          rw [okCrLines, List.all_cons, Bool.and_eq_true]
          exact ⟨by simp [hnew], h2⟩
        | lf =>
          rw [okCrLines, List.all_cons, Bool.and_eq_true]
          exact ⟨by simp [hnew], h2⟩
        | eos =>
          rw [okCrLines, List.all_cons, Bool.and_eq_true]
          exact ⟨by simp [hnew], h2⟩
        | cr => exact absurd rfl h1.2
      · rw [if_neg hpc]
        rw [okCrLines, List.all_cons, Bool.and_eq_true]
        exact ⟨by simp [h1.1, h1.2], ih h2⟩

theorem deleteFirstBy_okCr (p : Text → Bool) :
    ∀ ls : List Line, okCrLines ls = true → okCrLines (deleteFirstBy p ls) = true := by
  intro ls
  induction ls with
  | nil => intro h; exact h
  | cons q rest ih =>
    intro h
    cases q with
    | mk c s =>
      rw [okCrLines, List.all_cons, Bool.and_eq_true] at h
      obtain ⟨h1, h2⟩ := h
      unfold deleteFirstBy
      by_cases hpc : p c = true
      · rw [if_pos hpc]
        cases s with
        | crlf => exact h2
        | lf => exact h2
        | cr => exact h2
        | eos =>
          rw [okCrLines, List.all_cons, Bool.and_eq_true]
          exact ⟨by decide, h2⟩
      · rw [if_neg hpc]
        rw [okCrLines, List.all_cons, Bool.and_eq_true]
        exact ⟨h1, ih h2⟩

theorem afterFirstColon_clean : ∀ {r v : Text}, cleanContent r = true →
    afterFirstColon r = some v → cleanContent v = true := by
  intro r
  induction r with
  | nil => intro v h hv; simp [afterFirstColon] at hv
  | cons c r2 ih =>
    intro v h hv
    unfold afterFirstColon at hv
    by_cases hc : c = ':'
    · rw [if_pos hc] at hv
      injection hv with hv2
      subst hv2
      exact cleanContent_tail h
    · rw [if_neg hc] at hv
      exact ih (cleanContent_tail h) hv

theorem matchKey_clean {k c v : Text} (hc : cleanContent c = true)
    (h : matchKey k c = some v) : cleanContent v = true := by
  unfold matchKey at h
  by_cases hp : isPre k c = true
  · rw [if_pos hp] at h
    have hd : cleanContent (c.drop k.length) = true := cleanContent_drop c _ hc
    split at h
    · rename_i r2 heq
      rw [heq] at hd
      have hr2 := cleanContent_tail hd
      split at h
      · rename_i v2 heq2
        injection h with h2
        subst h2
        exact afterFirstColon_clean hr2 heq2
      · injection h with h2
        subst h2
        exact hr2
    · rename_i r2 heq
      rw [heq] at hd
      exact afterFirstColon_clean (cleanContent_tail hd) h
    · exact absurd h (by simp)
  · rw [if_neg hp] at h
    exact absurd h (by simp)

theorem findSome?_exists {α β : Type} (f : α → Option β) {v : β} :
    ∀ l : List α, l.findSome? f = some v → ∃ a ∈ l, f a = some v := by
  intro l
  induction l with
  | nil => intro h; simp [List.findSome?] at h
  | cons x r ih =>
    intro h
    rw [List.findSome?_cons] at h
    cases hf : f x with
    | some w =>
      rw [hf] at h
      simp only [Option.some.injEq] at h
      subst h
      exact ⟨x, by simp, hf⟩
    | none =>
      rw [hf] at h
      simp only [] at h
      obtain ⟨a, ha, hfa⟩ := ih h
      exact ⟨a, by simp [ha], hfa⟩

theorem getLineValue_clean {b k v : Text} (h : getLineValue b k = some v) :
    cleanContent v = true := by
  unfold getLineValue at h
  obtain ⟨ln, hmem, hm⟩ := findSome?_exists _ _ h
  exact matchKey_clean (wfLines_clean _ (splitLines_wf b) ln hmem) hm

theorem cleanContent_append (a b : Text) :
    cleanContent (a ++ b) = (cleanContent a && cleanContent b) := by
  simp [cleanContent, List.all_append]

theorem cleanContent_cons (c : Char) (r : Text) :
    cleanContent (c :: r) = ((decide (c ≠ '\r') && decide (c ≠ '\n')) && cleanContent r) := by
  simp [cleanContent, List.all_cons]

theorem genUid_clean (index i : Nat) (now : Int) :
    cleanContent (genUid index i now) = true := by
  unfold genUid
  simp only [cleanContent_append, Bool.and_eq_true]
  refine ⟨⟨⟨⟨by decide, natToStr_clean index⟩, by decide⟩, natToStr_clean i⟩, ?_⟩
  rw [cleanContent_cons]
  simp only [Bool.and_eq_true]
  refine ⟨by decide, ?_⟩
  rw [cleanContent_append, Bool.and_eq_true]
  exact ⟨intToStr_clean now, by decide⟩

theorem key_format_clean (key : Text) (hkc : cleanContent key = true) (d : JsNum) :
    cleanContent (key ++ ':' :: formatIcsDate d) = true := by
  have hf := formatIcsDate_clean d
  simp [cleanContent, List.all_append] at hkc hf ⊢
  exact ⟨hkc, hf⟩

theorem dtStage_noLoneCr (key : Text) (off : JsNum) (wk : Int) (b : Text)
    (hkc : cleanContent key = true) (hb : noLoneCr b = true) :
    noLoneCr (dtStage key off wk b) = true := by
  unfold dtStage
  split
  · split
    · exact hb
    · split
      · exact joinLines_noLoneCr _ (rewriteFirstBy_okCr _ _ (key_format_clean key hkc _) _
          (splitLines_okCr b hb))
      · exact hb
  · exact hb

theorem uidStage_eq (rc : Int) (i index : Nat) (now : Int) (b : Text) :
    uidStage rc i index now b =
      if 1 < rc then
        if jsTruthy (getLineValue b uidKeyT) = true then
          uidRewriteAux (uidColon ++ (getLineValue b uidKeyT).getD [] ++
            '-' :: 'W' :: natToStr i) [] (splitLines b)
        else
          if containsSub endMarker b = true then
            match splitFirstSub endMarker b with
            | some (a, z) =>
              a ++ uidColon ++ genUid index i now ++ '\r' :: '\n' :: (endMarker ++ z)
            | none => b
          else b ++ '\r' :: '\n' :: (uidColon ++ genUid index i now)
      else b := rfl

theorem expandSubstAux_no_dollar (m bf af c1 c2 : Text) :
    ∀ (fuel : Nat) (t : Text), (∀ x ∈ t, x ≠ '$') →
      expandSubstAux m bf af c1 c2 fuel t = t := by
  intro fuel
  induction fuel with
  | zero => intro t h; rfl
  | succ f ih =>
    intro t h
    cases t with
    | nil => rfl
    | cons c r =>
      have hc : c ≠ '$' := h c (by simp)
      unfold expandSubstAux
      rw [if_neg hc, ih r (fun x hx => h x (by simp [hx]))]

theorem expandSubst_no_dollar (m bf af c1 c2 t : Text)
    (h : ∀ x ∈ t, x ≠ '$') : expandSubst m bf af c1 c2 t = t :=
  expandSubstAux_no_dollar m bf af c1 c2 t.length t h

theorem uidRewriteAux_no_dollar (tmpl : Text) (hT : ∀ x ∈ tmpl, x ≠ '$') :
    ∀ (ls : List Line) (pre : Text),
      uidRewriteAux tmpl pre ls =
        joinLines (rewriteFirstBy (fun c => isPre uidColon c) tmpl ls) := by
  have hE : ∀ m bf af c1 c2, expandSubst m bf af c1 c2 tmpl = tmpl :=
    fun m bf af c1 c2 => expandSubst_no_dollar m bf af c1 c2 tmpl hT
  intro ls
  induction ls with
  | nil => intro pre; rfl
  | cons q rest ih =>
    intro pre
    cases q with
    | mk c s =>
      unfold uidRewriteAux rewriteFirstBy
      by_cases hpc : isPre uidColon c = true
      · rw [if_pos hpc, if_pos hpc]
        cases s with
        | crlf => simp [hE, joinLines, sepText]
        | lf => simp [hE, joinLines, sepText]
        | eos => simp [hE, joinLines, sepText]
        | cr =>
          cases rest with
          | nil => simp [hE, joinLines, sepText]
          | cons q2 r2 =>
            cases q2 with
            | mk c2 s2 =>
              cases c2 with
              | nil => simp [hE, joinLines, sepText]
              | cons bch bs => simp [hE, joinLines, sepText]
      · rw [if_neg hpc, if_neg hpc, ih (pre ++ c ++ sepText s)]
        rfl

theorem isDigit_ne_dollar {x : Char} (h : x.isDigit = true) : x ≠ '$' := by
  intro heq
  subst heq
  exact absurd h (by decide)

theorem uid_template_no_dollar (v : Text) (i : Nat) (hd : ∀ x ∈ v, x ≠ '$') :
    ∀ x ∈ uidColon ++ v ++ '-' :: 'W' :: natToStr i, x ≠ '$' := by
  intro x hx
  rcases List.mem_append.1 hx with hx1 | hx1
  · rcases List.mem_append.1 hx1 with hx2 | hx2
    · exact (by decide : ∀ y ∈ uidColon, y ≠ '$') x hx2
    · exact hd x hx2
  · rcases List.mem_cons.1 hx1 with h | h
    · subst h; decide
    · rcases List.mem_cons.1 h with h2 | h2
      · subst h2; decide
      · have h3 := natToStrAux_digits (i + 1) i
        rw [List.all_eq_true] at h3
        exact isDigit_ne_dollar (h3 x h2)

theorem isPre_take_drop : ∀ (p t : Text), isPre p t = true → t = p ++ t.drop p.length := by
  intro p
  induction p with
  | nil => intro t h; simp
  | cons a as ih =>
    intro t h
    cases t with
    | nil => simp [isPre] at h
    | cons b bs =>
      unfold isPre at h
      rw [Bool.and_eq_true, decide_eq_true_eq] at h
      obtain ⟨hab, h2⟩ := h
      subst hab
      have h3 := ih bs h2
      rw [List.length_cons, List.drop_succ_cons, List.cons_append]
      rw [← h3]

theorem splitFirstSub_decomp (pat : Text) : ∀ (t a z : Text),
    splitFirstSub pat t = some (a, z) → t = a ++ (pat ++ z) := by
  intro t
  induction t with
  | nil =>
    intro a z h
    unfold splitFirstSub at h
    by_cases hp : isPre pat [] = true
    · rw [if_pos hp] at h
      simp only [Option.some.injEq, Prod.mk.injEq] at h
      obtain ⟨ha, hz⟩ := h
      subst ha
      subst hz
      cases pat with
      | nil => rfl
      | cons x xs => simp [isPre] at hp
    · rw [if_neg hp] at h
      exact absurd h (by simp)
  | cons c r ih =>
    intro a z h
    unfold splitFirstSub at h
    by_cases hp : isPre pat (c :: r) = true
    · rw [if_pos hp] at h
      simp only [Option.some.injEq, Prod.mk.injEq] at h
      obtain ⟨ha, hz⟩ := h
      subst ha
      subst hz
      rw [List.nil_append]
      exact isPre_take_drop pat (c :: r) hp
    · rw [if_neg hp] at h
      cases hs : splitFirstSub pat r with
      | none => rw [hs] at h; simp at h
      | some pr =>
        cases pr with
        | mk a2 z2 =>
          rw [hs] at h
          simp at h
          obtain ⟨ha, hz⟩ := h
          subst hz
          subst ha
          rw [List.cons_append]
          rw [← ih a2 z2 (by rw [hs])]

theorem uidStage_noLoneCr (rc : Int) (i index : Nat) (now : Int) (b : Text)
    (hb : noLoneCr b = true)
    (hd : ∀ x ∈ (getLineValue b uidKeyT).getD [], x ≠ '$') :
    noLoneCr (uidStage rc i index now b) = true := by
  rw [uidStage_eq]
  by_cases hrc : 1 < rc
  · rw [if_pos hrc]
    by_cases ht : jsTruthy (getLineValue b uidKeyT) = true
    · rw [if_pos ht]
      rw [uidRewriteAux_no_dollar _ (uid_template_no_dollar _ i hd) (splitLines b) []]
      apply joinLines_noLoneCr
      apply rewriteFirstBy_okCr
      · have hv : cleanContent ((getLineValue b uidKeyT).getD []) = true := by
          cases hg : getLineValue b uidKeyT with
          | none => rfl
          | some v => exact getLineValue_clean hg
        rw [cleanContent_append, cleanContent_append, Bool.and_eq_true, Bool.and_eq_true]
        refine ⟨⟨by decide, hv⟩, ?_⟩
        rw [cleanContent_cons, cleanContent_cons]
        simp only [Bool.and_eq_true]
        exact ⟨by decide, by decide, natToStr_clean i⟩
      · exact splitLines_okCr b hb
    · rw [if_neg ht]
      by_cases hcs : containsSub endMarker b = true
      · rw [if_pos hcs]
        split
        · rename_i a z heq
          have hbdec := splitFirstSub_decomp endMarker b a z heq
          have ha : noLoneCr a = true := by
            refine noLoneCr_prefix a (("ND:VEVENT").data ++ z) (c := 'E') (by decide) ?_
            have he : a ++ 'E' :: (("ND:VEVENT").data ++ z) = b := by
              rw [hbdec]
              rfl
            rw [he]
            exact hb
          have hz : noLoneCr z = true := by
            have h3 : noLoneCr (endMarker ++ z) = true := by
              rw [hbdec] at hb
              exact noLoneCr_append_right hb
            exact noLoneCr_append_right h3
          refine noLoneCr_append (noLoneCr_append (noLoneCr_append ha (by decide))
            (noLoneCr_of_clean (genUid_clean index i now))) ?_
          rw [noLoneCr_crlf_cons]
          exact noLoneCr_append (by decide) hz
        · exact hb
      · rw [if_neg hcs]
        refine noLoneCr_append hb ?_
        rw [noLoneCr_crlf_cons]
        exact noLoneCr_append (by decide) (noLoneCr_of_clean (genUid_clean index i now))
  · rw [if_neg hrc]
    exact hb

theorem rruleStage_noLoneCr (w : Bool) (b : Text) (hb : noLoneCr b = true) :
    noLoneCr (rruleStage w b) = true := by
  unfold rruleStage
  split
  · exact joinLines_noLoneCr _ (deleteFirstBy_okCr _ _ (splitLines_okCr b hb))
  · exact hb

theorem processBlock_noLoneCr (off : JsNum) (w : Bool) (rc : Int) (now : Int)
    (i index : Nat) (b : Text) (hb : noLoneCr b = true)
    (hd : ∀ x ∈ (getLineValue b uidKeyT).getD [], x ≠ '$') :
    noLoneCr (processBlock off w rc now i index b) = true := by
  have hd2 : ∀ x ∈ (getLineValue (dtStage dtendKeyT off (weekMs i)
      (dtStage dtstartKeyT off (weekMs i) b)) uidKeyT).getD [], x ≠ '$' := by
    rw [getLineValue_dtStages_uid]
    exact hd
  exact rruleStage_noLoneCr _ _ (uidStage_noLoneCr _ _ _ _ _
    (dtStage_noLoneCr dtendKeyT _ _ _ (by decide)
      (dtStage_noLoneCr dtstartKeyT _ _ _ (by decide) hb)) hd2)

theorem findEndMarker_decomp : ∀ (t a rest : Text), findEndMarker t = some (a, rest) →
    t = a ++ rest ∧ a.getLast? = some 'T' := by
  intro t
  induction t with
  | nil => intro a rest h; simp [findEndMarker] at h
  | cons c r ih =>
    intro a rest h
    unfold findEndMarker at h
    by_cases hp : isPre endMarker (c :: r) = true
    · rw [if_pos hp] at h
      simp only [Option.some.injEq, Prod.mk.injEq] at h
      obtain ⟨ha, hrest⟩ := h
      subst ha
      subst hrest
      refine ⟨isPre_take_drop endMarker (c :: r) hp, by decide⟩
    · rw [if_neg hp] at h
      cases hm : findEndMarker r with
      | none => rw [hm] at h; simp at h
      | some pr =>
        cases pr with
        | mk a2 r2 =>
          rw [hm] at h
          simp only [Option.some.injEq, Prod.mk.injEq] at h
          obtain ⟨ha, hrest⟩ := h
          subst hrest
          subst ha
          obtain ⟨hdec, hlast⟩ := ih a2 r2 hm
          constructor
          · rw [List.cons_append, ← hdec]
          · cases a2 with
            | nil => simp at hlast
            | cons d a3 => rw [List.getLast?_cons_cons]; exact hlast

theorem findEndMarker_noLoneCr {t a rest : Text} (ht : noLoneCr t = true)
    (h : findEndMarker t = some (a, rest)) :
    noLoneCr a = true ∧ noLoneCr rest = true := by
  obtain ⟨hdec, hlast⟩ := findEndMarker_decomp t a rest h
  subst hdec
  constructor
  · refine noLoneCr_prefix_of_last a rest ht ?_
    rw [hlast]
    simp
  · exact noLoneCr_append_right ht

theorem extractBlocksAux_noLoneCr : ∀ (fuel : Nat) (t : Text), noLoneCr t = true →
    ∀ b ∈ extractBlocksAux fuel t, noLoneCr b = true := by
  intro fuel
  induction fuel with
  | zero => intro t ht b hb; simp [extractBlocksAux] at hb
  | succ f ih =>
    intro t ht b hb
    cases t with
    | nil => simp [extractBlocksAux] at hb
    | cons c r =>
      unfold extractBlocksAux at hb
      by_cases hp : isPre beginMarker (c :: r) = true
      · rw [if_pos hp] at hb
        have hdrop : noLoneCr ((c :: r).drop beginMarker.length) = true := by
          refine noLoneCr_append_right (a := beginMarker) ?_
          rw [← isPre_take_drop beginMarker (c :: r) hp]
          exact ht
        cases hfm : findEndMarker ((c :: r).drop beginMarker.length) with
        | none => rw [hfm] at hb; simp at hb
        | some pr =>
          cases pr with
          | mk mid rest =>
            rw [hfm] at hb
            simp only [List.mem_cons] at hb
            obtain ⟨hmid, hrest⟩ := findEndMarker_noLoneCr hdrop hfm
            rcases hb with hb | hb
            · subst hb
              exact noLoneCr_append (by decide) hmid
            · exact ih rest hrest b hb
      · rw [if_neg hp] at hb
        exact ih r (noLoneCr_tail ht) b hb

theorem eventBlocksOf_noLoneCr (clean : Text) (h : noLoneCr clean = true) :
    ∀ b ∈ eventBlocksOf clean, noLoneCr b = true := by
  intro b hb
  unfold eventBlocksOf at hb
  split at hb
  · simp only [List.mem_singleton] at hb
    subst hb
    refine noLoneCr_append (by decide) ?_
    rw [noLoneCr_crlf_cons]
    refine noLoneCr_append h ?_
    rw [noLoneCr_crlf_cons]
    decide
  · exact extractBlocksAux_noLoneCr clean.length clean h b hb

theorem mem_dropWhile {p : Char → Bool} : ∀ {l : Text} {x : Char},
    x ∈ l.dropWhile p → x ∈ l := by
  intro l
  induction l with
  | nil => intro x h; simp [List.dropWhile] at h
  | cons c r ih =>
    intro x h
    rw [List.dropWhile_cons] at h
    by_cases hp : p c = true
    · rw [if_pos hp] at h
      exact List.mem_cons_of_mem _ (ih h)
    · rw [if_neg hp] at h
      exact h

theorem mem_jsTrim {t : Text} {x : Char} (h : x ∈ jsTrim t) : x ∈ t := by
  unfold jsTrim at h
  rw [List.mem_reverse] at h
  have h2 := mem_dropWhile h
  rw [List.mem_reverse] at h2
  exact mem_dropWhile h2

theorem mem_crlfToLf : ∀ {t : Text} {x : Char}, x ∈ crlfToLf t → x ∈ t := by
  intro t
  induction t using crlfToLf.induct with
  | case1 => intro x h; simp [crlfToLf] at h
  | case2 r ih =>
    intro x h
    rw [crlfToLf_crlf] at h
    rcases List.mem_cons.1 h with h1 | h1
    · subst h1; simp
    · simp [ih h1]
  | case3 c r hcon ih =>
    intro x h
    rw [crlfToLf_cons c r hcon] at h
    rcases List.mem_cons.1 h with h1 | h1
    · subst h1; simp
    · simp [ih h1]

theorem mem_lfToCrlf : ∀ {t : Text} {x : Char}, x ∈ lfToCrlf t → x = '\r' ∨ x ∈ t := by
  intro t
  induction t using lfToCrlf.induct with
  | case1 => intro x h; simp [lfToCrlf] at h
  | case2 r ih =>
    intro x h
    rw [lfToCrlf_lf] at h
    rcases List.mem_cons.1 h with h1 | h1
    · exact Or.inl h1
    · rcases List.mem_cons.1 h1 with h2 | h2
      · subst h2; simp
      · rcases ih h2 with h3 | h3
        · exact Or.inl h3
        · exact Or.inr (by simp [h3])
  | case3 c r hcon ih =>
    intro x h
    rw [lfToCrlf_cons c r hcon] at h
    rcases List.mem_cons.1 h with h1 | h1
    · subst h1; exact Or.inr (by simp)
    · rcases ih h1 with h3 | h3
      · exact Or.inl h3
      · exact Or.inr (by simp [h3])

theorem mem_cleanText {t : Text} {x : Char} (h : x ∈ cleanText t) :
    x = '\r' ∨ x ∈ t := by
  unfold cleanText at h
  rcases mem_lfToCrlf h with h1 | h1
  · exact Or.inl h1
  · exact Or.inr (mem_jsTrim (mem_crlfToLf h1))

theorem splitLines_content_mem : ∀ (t : Text), ∀ ln ∈ splitLines t, ∀ x ∈ ln.1, x ∈ t := by
  intro t
  induction t using splitLines.induct with
  | case1 =>
    intro ln hln x hx
    simp [splitLines] at hln
    subst hln
    simp at hx
  | case2 r ih =>
    intro ln hln x hx
    rw [splitLines_crlf] at hln
    rcases List.mem_cons.1 hln with h1 | h1
    · subst h1; simp at hx
    · simp [ih ln h1 x hx]
  | case3 r hcon ih =>
    intro ln hln x hx
    rw [splitLines_cr r hcon] at hln
    rcases List.mem_cons.1 hln with h1 | h1
    · subst h1; simp at hx
    · simp [ih ln h1 x hx]
  | case4 r ih =>
    intro ln hln x hx
    rw [splitLines_lf] at hln
    rcases List.mem_cons.1 hln with h1 | h1
    · subst h1; simp at hx
    · simp [ih ln h1 x hx]
  | case5 c r hcon h2 h3 l s rest heq ih =>
    intro ln hln x hx
    rw [splitLines_cons_notterm c r h2 h3, heq] at hln
    rcases List.mem_cons.1 hln with h1 | h1
    · subst h1
      rcases List.mem_cons.1 hx with h2x | h2x
      · subst h2x; simp
      · have := ih (l, s) (by rw [heq]; exact List.mem_cons_self _ _) x h2x
        simp [this]
    · have := ih ln (by rw [heq]; exact List.mem_cons_of_mem _ h1) x hx
      simp [this]
  | case6 c r hcon h2 h3 heq ih =>
    intro ln hln
    exact absurd heq (splitLines_ne_nil r)

theorem afterFirstColon_mem : ∀ {r v : Text}, afterFirstColon r = some v →
    ∀ x ∈ v, x ∈ r := by
  intro r
  induction r with
  | nil => intro v h; simp [afterFirstColon] at h
  | cons c r2 ih =>
    intro v h x hx
    unfold afterFirstColon at h
    by_cases hc : c = ':'
    · rw [if_pos hc] at h
      injection h with h2
      subst h2
      exact List.mem_cons_of_mem _ hx
    · rw [if_neg hc] at h
      exact List.mem_cons_of_mem _ (ih h x hx)

theorem matchKey_value_mem {k c v : Text} (h : matchKey k c = some v) :
    ∀ x ∈ v, x ∈ c := by
  unfold matchKey at h
  by_cases hp : isPre k c = true
  · rw [if_pos hp] at h
    have hd : ∀ x ∈ c.drop k.length, x ∈ c := fun x hx => List.drop_subset _ _ hx
    split at h
    · rename_i r2 heq
      have hr2 : ∀ x ∈ r2, x ∈ c := fun x hx =>
        hd x (by rw [heq]; exact List.mem_cons_of_mem _ hx)
      split at h
      · rename_i v2 heq2
        injection h with h2
        subst h2
        exact fun x hx => hr2 x (afterFirstColon_mem heq2 x hx)
      · injection h with h2
        subst h2
        exact hr2
    · rename_i r2 heq
      have hr2 : ∀ x ∈ r2, x ∈ c := fun x hx =>
        hd x (by rw [heq]; exact List.mem_cons_of_mem _ hx)
      exact fun x hx => hr2 x (afterFirstColon_mem h x hx)
    · exact absurd h (by simp)
  · rw [if_neg hp] at h
    exact absurd h (by simp)

theorem getLineValue_value_mem {b k v : Text} (h : getLineValue b k = some v) :
    ∀ x ∈ v, x ∈ b := by
  unfold getLineValue at h
  obtain ⟨ln, hmem, hm⟩ := findSome?_exists _ _ h
  intro x hx
  exact splitLines_content_mem b ln hmem x (matchKey_value_mem hm x hx)

theorem findEndMarker_mem {t a rest : Text} (h : findEndMarker t = some (a, rest)) :
    ∀ x ∈ a, x ∈ t := by
  obtain ⟨hdec, _⟩ := findEndMarker_decomp t a rest h
  intro x hx
  rw [hdec]
  exact List.mem_append.2 (Or.inl hx)

theorem extractBlocksAux_mem : ∀ (fuel : Nat) (t : Text), ∀ b ∈ extractBlocksAux fuel t,
    ∀ x ∈ b, x ∈ beginMarker ∨ x ∈ t := by
  intro fuel
  induction fuel with
  | zero => intro t b hb; simp [extractBlocksAux] at hb
  | succ f ih =>
    intro t b hb x hx
    cases t with
    | nil => simp [extractBlocksAux] at hb
    | cons c r =>
      unfold extractBlocksAux at hb
      by_cases hp : isPre beginMarker (c :: r) = true
      · rw [if_pos hp] at hb
        have hdec := isPre_take_drop beginMarker (c :: r) hp
        cases hfm : findEndMarker ((c :: r).drop beginMarker.length) with
        | none => rw [hfm] at hb; simp at hb
        | some pr =>
          cases pr with
          | mk mid rest =>
            rw [hfm] at hb
            simp only [List.mem_cons] at hb
            rcases hb with hb | hb
            · subst hb
              rcases List.mem_append.1 hx with h1 | h1
              · exact Or.inl h1
              · refine Or.inr ?_
                rw [hdec]
                exact List.mem_append.2 (Or.inr (findEndMarker_mem hfm x h1))
            · rcases ih rest b hb x hx with h1 | h1
              · exact Or.inl h1
              · refine Or.inr ?_
                rw [hdec]
                obtain ⟨hdec2, _⟩ :=
                  findEndMarker_decomp ((c :: r).drop beginMarker.length) mid rest hfm
                rw [hdec2]
                exact List.mem_append.2 (Or.inr (List.mem_append.2 (Or.inr h1)))
      · rw [if_neg hp] at hb
        rcases ih r b hb x hx with h1 | h1
        · exact Or.inl h1
        · exact Or.inr (List.mem_cons_of_mem _ h1)

theorem eventBlocksOf_mem (clean : Text) : ∀ b ∈ eventBlocksOf clean, ∀ x ∈ b,
    x ∈ beginMarker ∨ x ∈ endMarker ∨ x = '\r' ∨ x = '\n' ∨ x ∈ clean := by
  intro b hb x hx
  unfold eventBlocksOf at hb
  split at hb
  · simp only [List.mem_singleton] at hb
    subst hb
    rcases List.mem_append.1 hx with h1 | h1
    · exact Or.inl h1
    · rcases List.mem_cons.1 h1 with h2 | h2
      · exact Or.inr (Or.inr (Or.inl h2))
      · rcases List.mem_cons.1 h2 with h3 | h3
        · exact Or.inr (Or.inr (Or.inr (Or.inl h3)))
        · rcases List.mem_append.1 h3 with h4 | h4
          · exact Or.inr (Or.inr (Or.inr (Or.inr h4)))
          · rcases List.mem_cons.1 h4 with h5 | h5
            · exact Or.inr (Or.inr (Or.inl h5))
            · rcases List.mem_cons.1 h5 with h6 | h6
              · exact Or.inr (Or.inr (Or.inr (Or.inl h6)))
              · exact Or.inr (Or.inl h6)
  · rcases extractBlocksAux_mem clean.length clean b hb x hx with h1 | h1
    · exact Or.inl h1
    · exact Or.inr (Or.inr (Or.inr (Or.inr h1)))

/-- A dollar-free input yields dollar-free UID values in every extracted
block: the value is made of characters of the block, which come from
the markers, the terminators and the cleaned text, itself made of
characters of the input and carriage returns. -/
theorem uid_value_no_dollar (input : Text) (hds : ∀ x ∈ input, x ≠ '$') :
    ∀ b ∈ eventBlocksOf (cleanText input),
      ∀ x ∈ (getLineValue b uidKeyT).getD [], x ≠ '$' := by
  intro b hb x hx
  cases hg : getLineValue b uidKeyT with
  | none => rw [hg] at hx; simp at hx
  | some v =>
    rw [hg] at hx
    simp only [Option.getD_some] at hx
    have h1 : x ∈ b := getLineValue_value_mem hg x hx
    rcases eventBlocksOf_mem _ b hb x h1 with h | h | h | h | h
    · revert h; exact (by decide : ∀ y ∈ beginMarker, y ≠ '$') x
    · revert h; exact (by decide : ∀ y ∈ endMarker, y ≠ '$') x
    · subst h; decide
    · subst h; decide
    · rcases mem_cleanText h with h2 | h2
      · subst h2; decide
      · exact hds x h2

theorem enumFrom_snd_mem {α : Type} : ∀ (n : Nat) (l : List α) (p : Nat × α),
    p ∈ List.enumFrom n l → p.2 ∈ l := by
  intro n l
  induction l generalizing n with
  | nil => intro p hp; simp [List.enumFrom] at hp
  | cons x r ih =>
    intro p hp
    rw [List.enumFrom] at hp
    rcases List.mem_cons.1 hp with h1 | h1
    · subst h1; simp
    · exact List.mem_cons_of_mem _ (ih (n + 1) p h1)

theorem finalEvents_noLoneCr (input : Text) (o : ProcessOptions) (now : Int)
    (hin : noLoneCr input = true) (hds : ∀ x ∈ input, x ≠ '$') :
    ∀ e ∈ finalEvents input o now, noLoneCr e = true := by
  intro e he
  unfold finalEvents at he
  simp only [List.mem_flatMap, List.mem_map] at he
  obtain ⟨i, hi, bi, hbi, heq⟩ := he
  subst heq
  have hmem : bi.2 ∈ eventBlocksOf (cleanText input) := enumFrom_snd_mem 0 _ bi hbi
  apply processBlock_noLoneCr
  · exact eventBlocksOf_noLoneCr (cleanText input) (cleanText_noLoneCr input hin) bi.2 hmem
  · exact uid_value_no_dollar input hds bi.2 hmem

theorem intercalate_noLoneCr : ∀ (l : List Text), (∀ e ∈ l, noLoneCr e = true) →
    noLoneCr (intercalate ('\r' :: '\n' :: []) l) = true := by
  intro l
  induction l with
  | nil => intro h; rfl
  | cons t r ih =>
    intro h
    cases r with
    | nil => exact h t (by simp)
    | cons t2 r2 =>
      show noLoneCr (t ++ ('\r' :: '\n' :: []) ++ intercalate ('\r' :: '\n' :: []) (t2 :: r2)) = true
      have h1 : noLoneCr t = true := h t (by simp)
      have h2 := ih (fun e he => h e (by simp [he]))
      exact noLoneCr_append (noLoneCr_append h1 (by decide)) h2

/-! ## Claim C6 -/

/-- Claim C6 counterexample: on a successful run over the sample input
the produced icsContent has a line terminator that is not CRLF — the
rewritten DTSTART line ends in a bare LF, because the multiline replace
consumes the matched carriage return and the replacement does not
restore it. -/
theorem c6_counterexample :
    (generateIcsFromText sampleEvent {} 0).map (fun res => allCrlfTerm res.icsContent) =
      some false := by
  rfl

/-- Claim C6 (amended): terminator normalization holds only up to the
rewriting steps.  When every carriage return of the input is part of a
CRLF pair and the input contains no dollar sign, every line terminator
of the returned icsContent is CRLF or a bare LF and never a lone CR;
the bare LFs are exactly the terminators of lines consumed by the
timestamp/identifier replaces, so the claimed all-CRLF property is
false, while a lone CR of the input survives untouched.  The
dollar-freeness proviso is needed because the line-138 replacement
string is dollar-expanded: a UID value containing the two characters
dollar-two makes the replacement re-inject the captured carriage
return without its line feed, manufacturing a lone CR from a CR-free
input. -/
theorem c6_no_lone_cr (input : Text) (o : ProcessOptions) (now : Int)
    (hin : noLoneCr input = true) (hds : ∀ x ∈ input, x ≠ '$') :
    ∀ res ∈ generateIcsFromText input o now,
      noLoneCr res.icsContent = true ∧
      (splitLines res.icsContent).all (fun ln => decide (ln.2 ≠ Sep.cr)) = true := by
  intro res hres
  rw [Option.mem_def] at hres
  unfold generateIcsFromText at hres
  cases hfe : finalEvents input o now with
  | nil => rw [hfe] at hres; simp at hres
  | cons e0 rest =>
    rw [hfe] at hres
    simp only [Option.some.injEq] at hres
    subst hres
    have hev : ∀ e ∈ finalEvents input o now, noLoneCr e = true :=
      finalEvents_noLoneCr input o now hin hds
    rw [hfe] at hev
    have h1 : noLoneCr (intercalate ('\r' :: '\n' :: []) (e0 :: rest)) = true :=
      intercalate_noLoneCr _ hev
    have h2 : noLoneCr (vcalHeader ++ '\r' :: '\n' ::
        (intercalate ('\r' :: '\n' :: []) (e0 :: rest) ++ '\r' :: '\n' :: vcalFooter)) = true := by
      refine noLoneCr_append (by decide) ?_
      rw [noLoneCr_crlf_cons]
      refine noLoneCr_append h1 ?_
      rw [noLoneCr_crlf_cons]
      decide
    refine ⟨h2, ?_⟩
    have h3 := splitLines_okCr _ h2
    rw [okCrLines, List.all_eq_true] at h3
    rw [List.all_eq_true]
    intro ln hln
    have h4 := h3 ln hln
    rw [Bool.and_eq_true] at h4
    exact h4.2

/-- Claim C6 witness: the amended theorem at the sample input, whose
carriage returns (there are none) trivially all sit in CRLF pairs and
which contains no dollar sign. -/
theorem c6_witness :
    noLoneCr sampleEvent = true ∧ (∀ x ∈ sampleEvent, x ≠ '$') ∧
    ∀ res ∈ generateIcsFromText sampleEvent {} 0,
      noLoneCr res.icsContent = true ∧
      (splitLines res.icsContent).all (fun ln => decide (ln.2 ≠ Sep.cr)) = true :=
  ⟨by decide, by decide, c6_no_lone_cr sampleEvent {} 0 (by decide) (by decide)⟩

/-! ## The untouched-line frame of the per-block processing -/

theorem othersOf_cons (c : Text) (s : Sep) (rest : List Line) :
    othersOf ((c, s) :: rest) =
      if specialLine c = true then othersOf rest else c :: othersOf rest := by
  simp only [othersOf, List.map_cons, List.filter_cons]
  cases hsc : specialLine c
  · simp [hsc]
  · simp [hsc]

theorem othersOf_rewriteFirstBy (p : Text → Bool) (new : Text)
    (hp : ∀ c, p c = true → specialLine c = true) (hnew : specialLine new = true) :
    ∀ ls : List Line, okCrLines ls = true →
      othersOf (rewriteFirstBy p new ls) = othersOf ls := by
  intro ls
  induction ls with
  | nil => intro hok; rfl
  | cons q rest ih =>
    intro hok
    cases q with
    | mk c s =>
      rw [okCrLines, List.all_cons, Bool.and_eq_true] at hok
      obtain ⟨hok1, hok2⟩ := hok
      rw [Bool.and_eq_true, decide_eq_true_eq] at hok1
      unfold rewriteFirstBy
      by_cases hpc : p c = true
      · rw [if_pos hpc]
        cases s with
        | crlf => rw [othersOf_cons, othersOf_cons, if_pos hnew, if_pos (hp c hpc)]
        | lf => rw [othersOf_cons, othersOf_cons, if_pos hnew, if_pos (hp c hpc)]
        | eos => rw [othersOf_cons, othersOf_cons, if_pos hnew, if_pos (hp c hpc)]
        | cr => exact absurd rfl hok1.2
      · rw [if_neg hpc]
        rw [othersOf_cons, othersOf_cons, ih hok2]

theorem othersOf_deleteFirstBy (p : Text → Bool)
    (hp : ∀ c, p c = true → specialLine c = true) :
    ∀ ls : List Line, othersOf (deleteFirstBy p ls) = othersOf ls := by
  intro ls
  induction ls with
  | nil => rfl
  | cons q rest ih =>
    cases q with
    | mk c s =>
      unfold deleteFirstBy
      by_cases hpc : p c = true
      · rw [if_pos hpc]
        cases s with
        | crlf => rw [othersOf_cons, if_pos (hp c hpc)]
        | lf => rw [othersOf_cons, if_pos (hp c hpc)]
        | cr => rw [othersOf_cons, if_pos (hp c hpc)]
        | eos =>
          rw [othersOf_cons, othersOf_cons, if_pos (hp c hpc), if_pos (by decide)]
      · rw [if_neg hpc]
        rw [othersOf_cons, othersOf_cons, ih]

theorem deleteFirstBy_wf (p : Text → Bool) :
    ∀ ls : List Line, wfLines ls = true → okCrLines ls = true →
      wfLines (deleteFirstBy p ls) = true ∧ deleteFirstBy p ls ≠ [] := by
  intro ls
  induction ls with
  | nil => intro hwf hok; simp [wfLines] at hwf
  | cons q rest ih =>
    intro hwf hok
    cases q with
    | mk c s =>
      obtain ⟨hc, hcase⟩ := wfLines_cons_elim hwf
      rw [okCrLines, List.all_cons, Bool.and_eq_true] at hok
      obtain ⟨hok1, hok2⟩ := hok
      rw [Bool.and_eq_true, decide_eq_true_eq] at hok1
      unfold deleteFirstBy
      by_cases hpc : p c = true
      · rw [if_pos hpc]
        rcases hcase with ⟨hnil, hse⟩ | ⟨hne, hse, hokj, hwfr⟩
        · subst hnil
          subst hse
          exact ⟨wfLines_intro_single rfl, by simp⟩
        · cases s with
          | eos => exact absurd rfl hse
          | crlf => exact ⟨hwfr, hne⟩
          | lf => exact ⟨hwfr, hne⟩
          | cr => exact absurd rfl hok1.2
      · rw [if_neg hpc]
        rcases hcase with ⟨hnil, hse⟩ | ⟨hne, hse, hokj, hwfr⟩
        · subst hnil
          subst hse
          exact ⟨wfLines_intro_single hc, by simp⟩
        · obtain ⟨hwfd, hned⟩ := ih hwfr hok2
          refine ⟨?_, by simp⟩
          cases hd : deleteFirstBy p rest with
          | nil => exact absurd hd hned
          | cons q2 r2 =>
            exact wfLines_intro_cons hc hse (okJunction_not_cr s _ hok1.2) (hd ▸ hwfd)

theorem othersOf_dtStage (key : Text) (off : JsNum) (wk : Int) (b : Text)
    (hkey : key = dtstartKeyT ∨ key = dtendKeyT) (hb : noLoneCr b = true) :
    othersOf (splitLines (dtStage key off wk b)) = othersOf (splitLines b) := by
  have hkc : cleanContent key = true := by
    rcases hkey with h | h <;> (subst h; decide)
  unfold dtStage
  split
  · split
    · rfl
    · split
      · rename_i od heq
        show othersOf (splitLines (joinLines (rewriteFirstBy
            (fun c => (matchKey key c).isSome)
            (key ++ ':' :: formatIcsDate (jsAdd (jsAdd od off) (some wk)))
            (splitLines b)))) = othersOf (splitLines b)
        have hclean := key_format_clean key hkc (jsAdd (jsAdd od off) (some wk))
        have hne : key ++ ':' :: formatIcsDate (jsAdd (jsAdd od off) (some wk)) ≠ [] := by
          cases key <;> simp
        rw [splitLines_joinLines _ (rewriteFirstBy_wf _ _ _ (splitLines_wf b) hclean hne)]
        refine othersOf_rewriteFirstBy _ _ ?_ ?_ _ (splitLines_okCr b hb)
        · intro c hm
          rcases hkey with h | h <;> subst h <;> simp [specialLine, hm]
        · have hz := matchKey_self_colon key (formatIcsDate (jsAdd (jsAdd od off) (some wk)))
            (afterFirstColon_none _ (formatIcsDate_no_colon _))
          have hsome : (matchKey key
              (key ++ ':' :: formatIcsDate (jsAdd (jsAdd od off) (some wk)))).isSome = true := by
            rw [hz]; rfl
          rcases hkey with h | h <;> subst h <;> simp [specialLine, hsome]
      · rfl
  · rfl

theorem othersOf_uidStage (rc : Int) (i index : Nat) (now : Int) (b : Text)
    (hb : noLoneCr b = true)
    (hd : ∀ x ∈ (getLineValue b uidKeyT).getD [], x ≠ '$')
    (huid : jsTruthy (getLineValue b uidKeyT) = true ∨ ¬ 1 < rc) :
    othersOf (splitLines (uidStage rc i index now b)) = othersOf (splitLines b) := by
  rw [uidStage_eq]
  by_cases hrc : 1 < rc
  · rw [if_pos hrc]
    have ht : jsTruthy (getLineValue b uidKeyT) = true := by
      rcases huid with h | h
      · exact h
      · exact absurd hrc h
    rw [if_pos ht]
    rw [uidRewriteAux_no_dollar _ (uid_template_no_dollar _ i hd) (splitLines b) []]
    have hv : cleanContent ((getLineValue b uidKeyT).getD []) = true := by
      cases hg : getLineValue b uidKeyT with
      | none => rfl
      | some v => exact getLineValue_clean hg
    have hclean : cleanContent (uidColon ++ (getLineValue b uidKeyT).getD [] ++
        '-' :: 'W' :: natToStr i) = true := by
      rw [cleanContent_append, cleanContent_append, Bool.and_eq_true, Bool.and_eq_true]
      refine ⟨⟨by decide, hv⟩, ?_⟩
      rw [cleanContent_cons, cleanContent_cons]
      simp only [Bool.and_eq_true]
      exact ⟨by decide, by decide, natToStr_clean i⟩
    have hne : uidColon ++ (getLineValue b uidKeyT).getD [] ++
        '-' :: 'W' :: natToStr i ≠ [] := by
      intro hcon
      rw [List.append_eq_nil, List.append_eq_nil] at hcon
      exact (by decide : uidColon ≠ []) hcon.1.1
    rw [splitLines_joinLines _ (rewriteFirstBy_wf _ _ _ (splitLines_wf b) hclean hne)]
    refine othersOf_rewriteFirstBy _ _ ?_ ?_ _ (splitLines_okCr b hb)
    · intro c hm
      simp [specialLine, hm]
    · have h1 : isPre uidColon (uidColon ++ ((getLineValue b uidKeyT).getD [] ++
          '-' :: 'W' :: natToStr i)) = true := isPre_append_self uidColon _
      have h2 : isPre uidColon (uidColon ++ (getLineValue b uidKeyT).getD [] ++
          '-' :: 'W' :: natToStr i) = true := by
        rw [List.append_assoc]
        exact h1
      simp only [specialLine, Bool.or_eq_true]
      exact Or.inl (Or.inl (Or.inr h2))
  · rw [if_neg hrc]

theorem othersOf_rruleStage (w : Bool) (b : Text) (hb : noLoneCr b = true) :
    othersOf (splitLines (rruleStage w b)) = othersOf (splitLines b) := by
  unfold rruleStage
  split
  · rw [splitLines_joinLines _ (deleteFirstBy_wf _ _ (splitLines_wf b)
      (splitLines_okCr b hb)).1]
    apply othersOf_deleteFirstBy
    intro c hm
    simp [specialLine, hm]
  · rfl

/-! ## Claim C10 -/

/-- Claim C10 counterexample: the synthetic fallback block of the input
X END:VEVENT Y.  Its middle content line is none of the special lines,
yet it does not survive into the processed block: the raw substring
replace of line 143 inserts the synthesized UID before the first
occurrence of the literal END:VEVENT, which here sits in the middle of
that line, splitting it in two. -/
theorem c10_counterexample :
    eventBlocksOf (cleanText (("X END:VEVENT Y").data)) = [sampleC10Block] ∧
    (("X END:VEVENT Y").data ∈ (splitLines sampleC10Block).map Prod.fst ∧
      specialLine (("X END:VEVENT Y").data) = false) ∧
    ("X END:VEVENT Y").data ∉
      (splitLines (processBlock (some 0) true 2 0 0 0 sampleC10Block)).map Prod.fst := by
  refine ⟨by rfl, ⟨by decide, by decide⟩, by decide⟩

/-- Claim C10 (amended): the frame holds only line-filtered and only
away from the UID-synthesis path and from dollar expansion.  For a
block whose carriage returns all sit in CRLF pairs, whose UID value
contains no dollar sign, and which carries a truthy UID value whenever
more than one occurrence is produced, the per-block processing
preserves, verbatim and in order, every line content that is not a
target of some replace (start/end field lines, plain UID and RRULE
lines, and empty lines).  When a UID has to be synthesized the raw
substring replace can split a non-special line, and a dollar sequence
in the UID value is expanded by the replace of line 138 (a quote after
the dollar sign duplicates the whole block tail into the rewritten
line), so the frame fails on both of those paths. -/
theorem c10_nonspecial_frame (off : JsNum) (w : Bool) (rc : Int) (now : Int)
    (i index : Nat) (b : Text) (hb : noLoneCr b = true)
    (hd : ∀ x ∈ (getLineValue b uidKeyT).getD [], x ≠ '$')
    (huid : jsTruthy (getLineValue b uidKeyT) = true ∨ ¬ 1 < rc) :
    othersOf (splitLines (processBlock off w rc now i index b)) =
      othersOf (splitLines b) := by
  unfold processBlock
  have hb1 : noLoneCr (dtStage dtstartKeyT off (weekMs i) b) = true :=
    dtStage_noLoneCr _ _ _ _ (by decide) hb
  have hb2 : noLoneCr (dtStage dtendKeyT off (weekMs i)
      (dtStage dtstartKeyT off (weekMs i) b)) = true :=
    dtStage_noLoneCr _ _ _ _ (by decide) hb1
  have huid2 : jsTruthy (getLineValue (dtStage dtendKeyT off (weekMs i)
      (dtStage dtstartKeyT off (weekMs i) b)) uidKeyT) = true ∨ ¬ 1 < rc := by
    rcases huid with h | h
    · left
      rw [getLineValue_dtStages_uid]
      exact h
    · right
      exact h
  have hd2 : ∀ x ∈ (getLineValue (dtStage dtendKeyT off (weekMs i)
      (dtStage dtstartKeyT off (weekMs i) b)) uidKeyT).getD [], x ≠ '$' := by
    rw [getLineValue_dtStages_uid]
    exact hd
  have hb3 : noLoneCr (uidStage rc i index now (dtStage dtendKeyT off (weekMs i)
      (dtStage dtstartKeyT off (weekMs i) b))) = true :=
    uidStage_noLoneCr _ _ _ _ _ hb2 hd2
  rw [othersOf_rruleStage _ _ hb3]
  rw [othersOf_uidStage _ _ _ _ _ hb2 hd2 huid2]
  rw [othersOf_dtStage dtendKeyT _ _ _ (Or.inr rfl) hb1]
  exact othersOf_dtStage dtstartKeyT _ _ _ (Or.inl rfl) hb

/-- Claim C10 witness: the amended theorem at a concrete single
occurrence of a block with a start, a summary and no repetition. -/
theorem c10_witness :
    othersOf (splitLines (processBlock (some 0) false 1 0 0 0
        (("BEGIN:VEVENT\r\nDTSTART:20240101T090000\r\nSUMMARY:Standup\r\nEND:VEVENT").data))) =
      othersOf (splitLines
        (("BEGIN:VEVENT\r\nDTSTART:20240101T090000\r\nSUMMARY:Standup\r\nEND:VEVENT").data)) :=
  c10_nonspecial_frame (some 0) false 1 0 0 0
    (("BEGIN:VEVENT\r\nDTSTART:20240101T090000\r\nSUMMARY:Standup\r\nEND:VEVENT").data)
    (by decide) (by decide) (Or.inr (by decide))

/-! ## The rewritten UID line -/

theorem findSome_rewriteFirstBy_uid (new v : Text) :
    ∀ ls : List Line,
      (∀ ln ∈ ls, (matchKey uidKeyT ln.1).isSome = true → isPre uidColon ln.1 = true) →
      (ls.findSome? (fun ln => matchKey uidKeyT ln.1)).isSome = true →
      matchKey uidKeyT new = some v →
      (rewriteFirstBy (fun c => isPre uidColon c) new ls).findSome?
        (fun ln => matchKey uidKeyT ln.1) = some v := by
  intro ls
  induction ls with
  | nil => intro hplain hex hnew; simp [List.findSome?] at hex
  | cons q rest ih =>
    intro hplain hex hnew
    cases q with
    | mk c s =>
      unfold rewriteFirstBy
      by_cases hpc : isPre uidColon c = true
      · simp only [hpc, if_true]
        cases s with
        | crlf => simp [List.findSome?_cons, hnew]
        | lf => simp [List.findSome?_cons, hnew]
        | eos => simp [List.findSome?_cons, hnew]
        | cr =>
          cases rest with
          | nil => simp [List.findSome?_cons, hnew]
          | cons q2 r2 =>
            cases q2 with
            | mk c2 s2 =>
              cases c2 with
              | nil => simp [List.findSome?_cons, hnew]
              | cons b bs => simp [List.findSome?_cons, hnew]
      · rw [if_neg hpc]
        have hnone : matchKey uidKeyT c = none := by
          cases hmc : matchKey uidKeyT c with
          | none => rfl
          | some v2 =>
            exact absurd (hplain (c, s) (by simp) (by rw [hmc]; rfl)) hpc
        rw [List.findSome?_cons] at hex ⊢
        rw [hnone] at hex ⊢
        exact ih (fun ln hln => hplain ln (by simp [hln])) hex hnew

theorem matchKey_uid_new (u x : Text) (hcf : ∀ c ∈ u, c ≠ ':')
    (hx : ∀ c ∈ x, c ≠ ':') :
    matchKey uidKeyT (uidColon ++ u ++ x) = some (u ++ x) := by
  have h1 : uidColon ++ u ++ x = uidKeyT ++ ':' :: (u ++ x) := by
    show (uidKeyT ++ ':' :: []) ++ u ++ x = uidKeyT ++ ':' :: (u ++ x)
    simp
  rw [h1]
  refine matchKey_self_colon uidKeyT (u ++ x) (afterFirstColon_none _ ?_)
  intro c hc
  rcases List.mem_append.1 hc with h | h
  · exact hcf c h
  · exact hx c h

theorem uid_suffix_no_colon (i : Nat) : ∀ c ∈ ('-' :: 'W' :: natToStr i), c ≠ ':' := by
  intro c hc
  rcases List.mem_cons.1 hc with h | h
  · subst h; decide
  · rcases List.mem_cons.1 h with h2 | h2
    · subst h2; decide
    · exact natToStrAux_no_colon _ _ c h2

theorem getLineValue_uidStage_self (rc : Int) (i index : Nat) (now : Int) (b u : Text)
    (hrc : 1 < rc)
    (hu : getLineValue b uidKeyT = some u) (hune : u ≠ []) (hcf : ∀ c ∈ u, c ≠ ':')
    (hdol : ∀ c ∈ u, c ≠ '$')
    (hplain : ∀ ln ∈ splitLines b,
      (matchKey uidKeyT ln.1).isSome = true → isPre uidColon ln.1 = true) :
    getLineValue (uidStage rc i index now b) uidKeyT =
      some (u ++ '-' :: 'W' :: natToStr i) := by
  rw [uidStage_eq]
  simp only [hu, Option.getD_some]
  rw [if_pos hrc, if_pos (jsTruthy_of_ne_nil hune)]
  rw [uidRewriteAux_no_dollar _ (uid_template_no_dollar u i hdol) (splitLines b) []]
  have hvclean : cleanContent u = true := getLineValue_clean hu
  have hclean : cleanContent (uidColon ++ u ++ '-' :: 'W' :: natToStr i) = true := by
    rw [cleanContent_append, cleanContent_append, Bool.and_eq_true, Bool.and_eq_true]
    refine ⟨⟨by decide, hvclean⟩, ?_⟩
    rw [cleanContent_cons, cleanContent_cons]
    simp only [Bool.and_eq_true]
    exact ⟨by decide, by decide, natToStr_clean i⟩
  have hne : uidColon ++ u ++ '-' :: 'W' :: natToStr i ≠ [] := by
    intro hcon
    rw [List.append_eq_nil, List.append_eq_nil] at hcon
    exact (by decide : uidColon ≠ []) hcon.1.1
  unfold getLineValue
  rw [splitLines_joinLines _ (rewriteFirstBy_wf _ _ _ (splitLines_wf b) hclean hne)]
  have hex : ((splitLines b).findSome? (fun ln => matchKey uidKeyT ln.1)).isSome = true := by
    have h0 : getLineValue b uidKeyT = some u := hu
    unfold getLineValue at h0
    rw [h0]
    rfl
  have hnewm : matchKey uidKeyT (uidColon ++ u ++ '-' :: 'W' :: natToStr i) =
      some (u ++ '-' :: 'W' :: natToStr i) :=
    matchKey_uid_new u _ hcf (uid_suffix_no_colon i)
  exact findSome_rewriteFirstBy_uid _ _ (splitLines b) hplain hex hnewm

theorem rewriteFirstBy_content_sub (p : Text → Bool) (new : Text) :
    ∀ ls : List Line, ∀ q ∈ rewriteFirstBy p new ls,
      q.1 = new ∨ q.1 ∈ ls.map Prod.fst := by
  intro ls
  induction ls with
  | nil => intro q hq; simp [rewriteFirstBy] at hq
  | cons q0 rest ih =>
    intro q hq
    cases q0 with
    | mk c s =>
      unfold rewriteFirstBy at hq
      by_cases hpc : p c = true
      · rw [if_pos hpc] at hq
        cases s with
        | crlf =>
          rcases List.mem_cons.1 hq with h | h
          · subst h; exact Or.inl rfl
          · exact Or.inr (List.mem_map.2 ⟨q, List.mem_cons_of_mem _ h, rfl⟩)
        | lf =>
          rcases List.mem_cons.1 hq with h | h
          · subst h; exact Or.inl rfl
          · exact Or.inr (List.mem_map.2 ⟨q, List.mem_cons_of_mem _ h, rfl⟩)
        | eos =>
          rcases List.mem_cons.1 hq with h | h
          · subst h; exact Or.inl rfl
          · exact Or.inr (List.mem_map.2 ⟨q, List.mem_cons_of_mem _ h, rfl⟩)
        | cr =>
          cases rest with
          | nil =>
            simp only [List.mem_singleton] at hq
            subst hq
            exact Or.inl rfl
          | cons q2 r2 =>
            cases q2 with
            | mk c2 s2 =>
              cases c2 with
              | nil =>
                rcases List.mem_cons.1 hq with h | h
                · subst h; exact Or.inl rfl
                · exact Or.inr (List.mem_map.2
                    ⟨q, List.mem_cons_of_mem _ (List.mem_cons_of_mem _ h), rfl⟩)
              | cons bch bs =>
                rcases List.mem_cons.1 hq with h | h
                · subst h; exact Or.inl rfl
                · exact Or.inr (List.mem_map.2 ⟨q, List.mem_cons_of_mem _ h, rfl⟩)
      · rw [if_neg hpc] at hq
        rcases List.mem_cons.1 hq with h | h
        · subst h
          exact Or.inr (List.mem_map.2 ⟨(c, s), List.mem_cons_self _ _, rfl⟩)
        · rcases ih q h with h2 | h2
          · exact Or.inl h2
          · obtain ⟨q3, hq3, he3⟩ := List.mem_map.1 h2
            exact Or.inr (List.mem_map.2 ⟨q3, List.mem_cons_of_mem _ hq3, he3⟩)

theorem matchKey_uid_none_of_key (key : Text)
    (hkey : key = dtstartKeyT ∨ key = dtendKeyT) (x : Text) :
    matchKey uidKeyT (key ++ ':' :: x) = none := by
  rcases hkey with h | h <;> subst h <;> exact matchKey_none_of_not_pre rfl

theorem plainUid_dtStage (key : Text) (off : JsNum) (wk : Int) (b : Text)
    (hkey : key = dtstartKeyT ∨ key = dtendKeyT)
    (hplain : ∀ ln ∈ splitLines b,
      (matchKey uidKeyT ln.1).isSome = true → isPre uidColon ln.1 = true) :
    ∀ ln ∈ splitLines (dtStage key off wk b),
      (matchKey uidKeyT ln.1).isSome = true → isPre uidColon ln.1 = true := by
  have hkc : cleanContent key = true := by
    rcases hkey with h | h <;> (subst h; decide)
  unfold dtStage
  split
  · split
    · exact hplain
    · split
      · rename_i od heq
        show ∀ ln ∈ splitLines (joinLines (rewriteFirstBy
            (fun c => (matchKey key c).isSome)
            (key ++ ':' :: formatIcsDate (jsAdd (jsAdd od off) (some wk)))
            (splitLines b))), (matchKey uidKeyT ln.1).isSome = true →
              isPre uidColon ln.1 = true
        have hclean := key_format_clean key hkc (jsAdd (jsAdd od off) (some wk))
        have hne : key ++ ':' :: formatIcsDate (jsAdd (jsAdd od off) (some wk)) ≠ [] := by
          cases key <;> simp
        rw [splitLines_joinLines _ (rewriteFirstBy_wf _ _ _ (splitLines_wf b) hclean hne)]
        intro ln hln hm
        rcases rewriteFirstBy_content_sub _ _ _ ln hln with hq | hq
        · rw [hq, matchKey_uid_none_of_key key hkey] at hm
          simp at hm
        · obtain ⟨q2, hq2mem, hq2eq⟩ := List.mem_map.1 hq
          rw [← hq2eq] at hm ⊢
          exact hplain q2 hq2mem hm
      · exact hplain
  · exact hplain

theorem findSome_deleteFirstBy (k : Text) (p : Text → Bool)
    (hdisj : ∀ c : Text, p c = true → matchKey k c = none) (hk : k ≠ []) :
    ∀ ls : List Line, (deleteFirstBy p ls).findSome? (fun ln => matchKey k ln.1) =
      ls.findSome? (fun ln => matchKey k ln.1) := by
  intro ls
  induction ls with
  | nil => rfl
  | cons q rest ih =>
    cases q with
    | mk c s =>
      unfold deleteFirstBy
      by_cases hpc : p c = true
      · rw [if_pos hpc]
        cases s with
        | crlf => rw [List.findSome?_cons, hdisj c hpc]
        | lf => rw [List.findSome?_cons, hdisj c hpc]
        | cr => rw [List.findSome?_cons, hdisj c hpc]
        | eos =>
          rw [List.findSome?_cons, List.findSome?_cons, hdisj c hpc, matchKey_nil_line hk]
      · rw [if_neg hpc]
        rw [List.findSome?_cons, List.findSome?_cons]
        cases hmc : matchKey k c with
        | some v => rfl
        | none => exact ih

theorem getLineValue_rruleStage_uid (w : Bool) (b : Text) (hb : noLoneCr b = true) :
    getLineValue (rruleStage w b) uidKeyT = getLineValue b uidKeyT := by
  unfold rruleStage
  split
  · unfold getLineValue
    rw [splitLines_joinLines _ (deleteFirstBy_wf _ _ (splitLines_wf b)
      (splitLines_okCr b hb)).1]
    exact findSome_deleteFirstBy uidKeyT _
      (fun c hc => matchKey_none_of_other_pre hc (by decide) (by decide)) (by decide)
      (splitLines b)
  · rfl

theorem getLineValue_processBlock_uid (off : JsNum) (w : Bool) (rc : Int) (now : Int)
    (i index : Nat) (b u : Text) (hb : noLoneCr b = true) (hrc : 1 < rc)
    (hu : getLineValue b uidKeyT = some u) (hune : u ≠ []) (hcf : ∀ c ∈ u, c ≠ ':')
    (hdol : ∀ c ∈ u, c ≠ '$')
    (hplain : ∀ ln ∈ splitLines b,
      (matchKey uidKeyT ln.1).isSome = true → isPre uidColon ln.1 = true) :
    getLineValue (processBlock off w rc now i index b) uidKeyT =
      some (u ++ '-' :: 'W' :: natToStr i) := by
  unfold processBlock
  have hb1 : noLoneCr (dtStage dtstartKeyT off (weekMs i) b) = true :=
    dtStage_noLoneCr _ _ _ _ (by decide) hb
  have hb2 : noLoneCr (dtStage dtendKeyT off (weekMs i)
      (dtStage dtstartKeyT off (weekMs i) b)) = true :=
    dtStage_noLoneCr _ _ _ _ (by decide) hb1
  have hu2 : getLineValue (dtStage dtendKeyT off (weekMs i)
      (dtStage dtstartKeyT off (weekMs i) b)) uidKeyT = some u := by
    rw [getLineValue_dtStages_uid]
    exact hu
  have hd2 : ∀ x ∈ (getLineValue (dtStage dtendKeyT off (weekMs i)
      (dtStage dtstartKeyT off (weekMs i) b)) uidKeyT).getD [], x ≠ '$' := by
    rw [hu2]
    exact hdol
  have hb3 : noLoneCr (uidStage rc i index now (dtStage dtendKeyT off (weekMs i)
      (dtStage dtstartKeyT off (weekMs i) b))) = true :=
    uidStage_noLoneCr _ _ _ _ _ hb2 hd2
  rw [getLineValue_rruleStage_uid w _ hb3]
  have hplain2 := plainUid_dtStage dtendKeyT off (weekMs i) _ (Or.inr rfl)
    (plainUid_dtStage dtstartKeyT off (weekMs i) b (Or.inl rfl) hplain)
  exact getLineValue_uidStage_self rc i index now _ u hrc hu2 hune hcf hdol hplain2

/-! ## Injectivity of the decimal rendering and of the week suffix -/

theorem digitsVal_append_single (x : Text) (c : Char) :
    digitsVal (x ++ [c]) = digitsVal x * 10 + (c.toNat - 48) := by
  simp [digitsVal, List.foldl_append]

theorem digitChar_toNat (n : Nat) (h : n < 10) : (digitChar n).toNat = 48 + n := by
  interval_cases n <;> decide

theorem natToStr_val : ∀ n : Nat, digitsVal (natToStr n) = n := by
  intro n
  induction n using Nat.strong_induction_on with
  | _ n ih =>
    rw [natToStr_unfold]
    by_cases h : n < 10
    · rw [if_pos h]
      show digitsVal [digitChar n] = n
      simp [digitsVal, digitChar_toNat n h]
    · rw [if_neg h]
      rw [digitsVal_append_single, ih (n / 10) (by omega),
        digitChar_toNat _ (Nat.mod_lt _ (by omega))]
      omega

theorem natToStr_inj {i j : Nat} (h : natToStr i = natToStr j) : i = j := by
  have h2 := congrArg digitsVal h
  rwa [natToStr_val, natToStr_val] at h2

theorem uid_suffix_inj : ∀ (u1 u2 d1 d2 : Text), d1.all Char.isDigit = true →
    d2.all Char.isDigit = true →
    u1 ++ '-' :: 'W' :: d1 = u2 ++ '-' :: 'W' :: d2 → u1 = u2 ∧ d1 = d2 := by
  intro u1
  induction u1 with
  | nil =>
    intro u2 d1 d2 h1 h2 heq
    cases u2 with
    | nil =>
      simp at heq
      exact ⟨rfl, heq⟩
    | cons a u2t =>
      rw [List.nil_append, List.cons_append] at heq
      injection heq with ha heq2
      cases u2t with
      | nil =>
        rw [List.nil_append] at heq2
        injection heq2 with hw _
        exact absurd hw (by decide)
      | cons a2 u2tt =>
        rw [List.cons_append] at heq2
        injection heq2 with hw heq3
        have hmem : '-' ∈ d1 := by
          rw [heq3]
          exact List.mem_append.2 (Or.inr (by simp))
        rw [List.all_eq_true] at h1
        have h3 := h1 '-' hmem
        simp at h3
  | cons a u1t ih =>
    intro u2 d1 d2 h1 h2 heq
    cases u2 with
    | nil =>
      rw [List.nil_append, List.cons_append] at heq
      injection heq with ha heq2
      cases u1t with
      | nil =>
        rw [List.nil_append] at heq2
        injection heq2 with hw _
        exact absurd hw (by decide)
      | cons b u1tt =>
        rw [List.cons_append] at heq2
        injection heq2 with hb heq3
        have hmem : '-' ∈ d2 := by
          rw [← heq3]
          exact List.mem_append.2 (Or.inr (by simp))
        rw [List.all_eq_true] at h2
        have h3 := h2 '-' hmem
        simp at h3
    | cons b u2t =>
      rw [List.cons_append, List.cons_append] at heq
      injection heq with hab heq2
      obtain ⟨he1, he2⟩ := ih u2t d1 d2 h1 h2 heq2
      subst hab
      rw [he1]
      exact ⟨rfl, he2⟩

/-! ## Pairwise distinctness over the expansion -/

theorem map_flatMap_eq {α β γ : Type} (g : β → γ) (F : α → List β) :
    ∀ l : List α, (l.flatMap F).map g = l.flatMap (fun a => (F a).map g) := by
  intro l
  induction l with
  | nil => rfl
  | cons a r ih => simp [List.flatMap_cons, ih]

theorem pairwise_flatMap_of {α β : Type} (R : β → β → Prop) (F : α → List β) :
    ∀ l : List α, (∀ a ∈ l, (F a).Pairwise R) →
      l.Pairwise (fun a1 a2 => ∀ x ∈ F a1, ∀ y ∈ F a2, R x y) →
      (l.flatMap F).Pairwise R := by
  intro l
  induction l with
  | nil => intro _ _; simp
  | cons a r ih =>
    intro hin hacross
    rw [List.flatMap_cons, List.pairwise_append]
    rcases List.pairwise_cons.1 hacross with ⟨hhead, htail⟩
    refine ⟨hin a (by simp), ih (fun x hx => hin x (by simp [hx])) htail, ?_⟩
    intro x hx y hy
    obtain ⟨a2, ha2, hy2⟩ := List.mem_flatMap.1 hy
    exact hhead a2 ha2 x hx y hy2

theorem pairwise_imp_mem {α : Type} {R S : α → α → Prop} :
    ∀ l : List α, (∀ a ∈ l, ∀ b ∈ l, R a b → S a b) → l.Pairwise R → l.Pairwise S := by
  intro l
  induction l with
  | nil => intro _ _; exact List.Pairwise.nil
  | cons a r ih =>
    intro himp hp
    rcases List.pairwise_cons.1 hp with ⟨h1, h2⟩
    refine List.pairwise_cons.2 ⟨?_, ih
      (fun x hx y hy => himp x (by simp [hx]) y (by simp [hy])) h2⟩
    intro b hb
    exact himp a (by simp) b (by simp [hb]) (h1 b hb)

theorem enumFrom_map_snd {α : Type} : ∀ (n : Nat) (l : List α),
    (List.enumFrom n l).map Prod.snd = l := by
  intro n l
  induction l generalizing n with
  | nil => rfl
  | cons a r ih => simp [List.enumFrom, ih]

theorem pairwise_enum_of {α : Type} {P : α → α → Prop} (l : List α) (h : l.Pairwise P) :
    l.enum.Pairwise (fun a b => P a.2 b.2) := by
  have h2 : (l.enum.map Prod.snd).Pairwise P := by
    show (List.enumFrom 0 l |>.map Prod.snd).Pairwise P
    rw [enumFrom_map_snd]
    exact h
  exact (List.pairwise_map).1 h2

/-! ## Claim C3 -/

/-- Claim C3 counterexample: two blocks sharing the UID value x,
expanded for two weeks.  The first two output blocks (week zero) both
carry the identifier value x-W0: the week suffix never disambiguates
two blocks inside the same week, and the code never checks the input
identifiers for duplicates. -/
theorem c3_counterexample :
    ((finalEvents sampleDupUids ⟨none, true, some 2⟩ 0).map
        (fun e => getLineValue e uidKeyT)).get? 0 = some (some (("x-W0").data)) ∧
    ((finalEvents sampleDupUids ⟨none, true, some 2⟩ 0).map
        (fun e => getLineValue e uidKeyT)).get? 1 = some (some (("x-W0").data)) := by
  constructor
  · rfl
  · rfl

/-- Claim C3 (amended): with more than one occurrence, the output
identifiers are pairwise distinct provided every extracted block
carries a nonempty identifier, free of colons and of dollar signs, on
a plain UID: line, and the input identifier values are pairwise
distinct; the suffix -W plus the occurrence index then separates
occurrences of one block, and distinct input identifiers stay distinct
under suffixing.  The original unconditional claim is false twice
over: two blocks that share an identifier value collide inside every
week, and dollar sequences in a value are expanded by the replace of
line 138 (the values consisting of two dollar signs and of one both
yield the same expanded identifier), so distinctness also needs the
dollar-free proviso. -/
theorem c3_unique_uids (t : Text) (o : ProcessOptions) (now : Int)
    (hrc : 1 < repeatCount o) (hin : noLoneCr t = true)
    (hblocks : ∀ b ∈ eventBlocksOf (cleanText t), ∃ u : Text,
      getLineValue b uidKeyT = some u ∧ u ≠ [] ∧ (∀ c ∈ u, c ≠ ':') ∧
      (∀ c ∈ u, c ≠ '$') ∧
      ∀ ln ∈ splitLines b, (matchKey uidKeyT ln.1).isSome = true →
        isPre uidColon ln.1 = true)
    (hdist : ((eventBlocksOf (cleanText t)).map
      (fun b => getLineValue b uidKeyT)).Pairwise (fun x y => x ≠ y)) :
    ((finalEvents t o now).map (fun e => getLineValue e uidKeyT)).Pairwise
      (fun x y => x ≠ y) := by
  have hblkcr : ∀ b ∈ eventBlocksOf (cleanText t), noLoneCr b = true :=
    eventBlocksOf_noLoneCr _ (cleanText_noLoneCr t hin)
  have hval : ∀ (i : Nat) (bi : Nat × Text), bi ∈ (eventBlocksOf (cleanText t)).enum →
      ∀ u : Text, getLineValue bi.2 uidKeyT = some u →
      getLineValue (processBlock (timeOffset (eventBlocksOf (cleanText t)) o.startDate)
        o.isWeekly (repeatCount o) now i bi.1 bi.2) uidKeyT =
        some (u ++ '-' :: 'W' :: natToStr i) := by
    intro i bi hbi u hu
    have hmem := enumFrom_snd_mem 0 _ bi hbi
    obtain ⟨u2, hu2, hune, hcf, hdol, hplain⟩ := hblocks bi.2 hmem
    have heq : u2 = u := by
      have h3 := hu2.symm.trans hu
      injection h3
    subst heq
    exact getLineValue_processBlock_uid _ _ _ _ _ _ _ u2 (hblkcr bi.2 hmem) hrc
      hu2 hune hcf hdol hplain
  unfold finalEvents
  rw [map_flatMap_eq]
  apply pairwise_flatMap_of
  · intro i hi
    rw [List.pairwise_map, List.pairwise_map]
    have hde := pairwise_enum_of _ (List.pairwise_map.1 hdist)
    refine pairwise_imp_mem _ ?_ hde
    intro a ha b hb hne heq
    obtain ⟨ua, hua, _, _, _, _⟩ := hblocks a.2 (enumFrom_snd_mem 0 _ a ha)
    obtain ⟨ub, hub, _, _, _, _⟩ := hblocks b.2 (enumFrom_snd_mem 0 _ b hb)
    rw [hval i a ha ua hua, hval i b hb ub hub] at heq
    injection heq with heq2
    obtain ⟨hu12, _⟩ := uid_suffix_inj ua ub _ _ (natToStrAux_digits _ _)
      (natToStrAux_digits _ _) heq2
    rw [hua, hub, hu12] at hne
    exact hne rfl
  · refine pairwise_imp_mem _ ?_ (List.nodup_range _)
    intro i1 _ i2 _ hne x hx y hy heq
    obtain ⟨w1, hw1, hxw⟩ := List.mem_map.1 hx
    obtain ⟨a, ha, hwa⟩ := List.mem_map.1 hw1
    obtain ⟨w2, hw2, hyw⟩ := List.mem_map.1 hy
    obtain ⟨b2, hb2, hwb⟩ := List.mem_map.1 hw2
    obtain ⟨ua, hua, _, _, _, _⟩ := hblocks a.2 (enumFrom_snd_mem 0 _ a ha)
    obtain ⟨ub, hub, _, _, _, _⟩ := hblocks b2.2 (enumFrom_snd_mem 0 _ b2 hb2)
    rw [← hxw, ← hyw, ← hwa, ← hwb] at heq
    rw [hval i1 a ha ua hua, hval i2 b2 hb2 ub hub] at heq
    injection heq with heq2
    obtain ⟨_, hd⟩ := uid_suffix_inj ua ub _ _ (natToStrAux_digits _ _)
      (natToStrAux_digits _ _) heq2
    exact hne (natToStr_inj hd)

/-- Claim C3 witness: the amended theorem at a one-block input with the
plain identifier value abc, expanded for two weeks. -/
theorem c3_witness :
    ((finalEvents samplePlainUid ⟨none, true, some 2⟩ 0).map
      (fun e => getLineValue e uidKeyT)).Pairwise (fun x y => x ≠ y) := by
  refine c3_unique_uids samplePlainUid ⟨none, true, some 2⟩ 0 (by decide) (by decide)
    ?_ ?_
  · intro b hb
    have hb2 : b = ("BEGIN:VEVENT\r\nUID:abc\r\nEND:VEVENT").data := by
      have h0 : eventBlocksOf (cleanText samplePlainUid) =
          [("BEGIN:VEVENT\r\nUID:abc\r\nEND:VEVENT").data] := by rfl
      rw [h0] at hb
      simpa using hb
    subst hb2
    exact ⟨("abc").data, by rfl, by decide, by decide, by decide, by decide⟩
  · have h0 : (eventBlocksOf (cleanText samplePlainUid)).map
        (fun b => getLineValue b uidKeyT) = [some (("abc").data)] := by rfl
    rw [h0]
    simp

end Ics
